import Mathlib

/-!
# Verification of the ia-fil-toolbox tree-aggregation engine

A shallow embedding of the core of `ia-fil-toolbox` (tree walking,
multi-root merge with conflict exclusion, shallow collection, manifest
completeness validation, synthetic directory assembly, MFS directory
building, and shallow CAR export), together with proofs of the spec's
testable properties.

The external content-addressed store is modelled as a function from
addresses to listing results; Python dicts are modelled as ordered
association lists with overwrite-in-place insertion, matching CPython
dict semantics (insertion order preserved, assignment to an existing
key keeps its position).
-/

namespace IaFil

/-! ## Python dict model -/

/-- A Python `dict` with string keys: an ordered association list whose
keys are pairwise distinct by construction of the operations below. -/
abbrev Dict (α : Type) := List (String × α)


/-- `k in d` for a Python dict. -/
def dmem (d : Dict α) (k : String) : Bool :=
  d.any (fun p => p.1 = k)


/-- `d[k]` lookup (as an option, `None` when the key is absent). -/
def dlookup (d : Dict α) (k : String) : Option α :=
  (d.find? (fun p => p.1 = k)).map (fun p => p.2)


/-- `d[k] = v`: overwrite in place when the key exists, else append
(CPython dicts keep the original position of an updated key). -/
def dinsert (d : Dict α) (k : String) (v : α) : Dict α :=
  if dmem d k then d.map (fun p => if p.1 = k then (k, v) else p)
  else d ++ [(k, v)]


/-- `d.update(e)`: assign every entry of `e` into `d`, in order. -/
def dupdate (d e : Dict α) : Dict α :=
  e.foldl (fun acc p => dinsert acc p.1 p.2) d


/-- The key list of a dict. -/
def dkeys (d : Dict α) : List String := d.map Prod.fst


/-- A Python `set` of strings (insertion-ordered, duplicate-free list). -/
def sinsert (s : List String) (k : String) : List String :=
  if k ∈ s then s else s ++ [k]


/-! ## The content-addressed store -/

/-- The outcome of `ipfs ls --resolve-type=false --size=false ADDR`:
`err` is a non-zero exit status or a timeout, `ok entries` is a
successful listing, each entry a `(childAddress, name)` pair (matching
the two whitespace-separated output columns). -/
inductive LsResult (α : Type) where
  | err : LsResult α
  | ok : List (α × String) → LsResult α


/-- A deterministic content-addressed store: each address has a fixed
listing outcome. -/
abbrev Store (α : Type) := α → LsResult α


/-! ## TreeWalker: `shared.list_files_with_cids` / `walk_directory` -/

/-- `shared.walk_directory` (src/shared.py lines 87–147): recursively
walk a directory address.  For each listed entry with full path
`pref ++ name`: if the path is in `known_files` record it as a
file without probing; otherwise probe the entry with a second listing —
a successful non-empty listing classifies a directory (recurse with
prefix `full_path ++ "/"`), while a failed/timed-out (`err`) or empty
listing records a file.  `fuel` bounds the recursion depth (the Python
recursion is bounded by the actual tree depth). -/
def walk_directory (store : Store α) (known_files : List String) :
    Nat → α → String → Dict α
  | 0, _, _ => []
  | fuel + 1, dir_cid, pref =>
    match store dir_cid with
    | .err => []
    | .ok entries =>
      entries.foldl
        (fun files entry =>
          let full_path := pref ++ entry.2
          if full_path ∈ known_files then
            dinsert files full_path entry.1
          else
            match store entry.1 with
            | .ok (_ :: _) =>
              dupdate files
                (walk_directory store known_files fuel entry.1 (full_path ++ "/"))
            | _ => dinsert files full_path entry.1)
        []


/-- `shared.list_files_with_cids` (src/shared.py lines 76–149): walk
from the root with an empty path prefix.  A `known_files` of `[]`
models Python's `None` (both are falsy, so the membership check is
skipped either way). -/
def list_files_with_cids (store : Store α) (fuel : Nat) (cid : α)
    (known_files : List String := []) : Dict α :=
  walk_directory store known_files fuel cid ""


/-- Modelled from the spec: the variant of `list_files_with_cids` taking a
`force_check_directories` parameter, which `merge_root_cids`
(src/merge_roots_cmd.py line 31) and the `--force-check-directories` CLI
flag call but which is missing from the `shared.py` under `src/` (its
version only accepts `known_files`).  Per the spec (§4.1) and the
repository's own tests: in heuristic mode (the default,
`force_check_directories = false`) an entry whose literal name looks like
a file — e.g. ends in a common extension such as `.jpg`, abstracted here
as the predicate `looks_like_file` — is classified as a File without any
probe; otherwise, and always in exhaustive mode, the entry is probed with
a listing: successful non-empty listing ⇒ Directory (recurse with prefix
`name ++ "/"`), failure or empty listing ⇒ File. -/
def walk_directory_fc (store : Store α) (looks_like_file : String → Bool)
    (force_check_directories : Bool) : Nat → α → String → Dict α
  | 0, _, _ => []
  | fuel + 1, dir_cid, pref =>
    match store dir_cid with
    | .err => []
    | .ok entries =>
      entries.foldl
        (fun files entry =>
          let full_path := pref ++ entry.2
          if !force_check_directories && looks_like_file entry.2 then
            dinsert files full_path entry.1
          else
            match store entry.1 with
            | .ok (_ :: _) =>
              dupdate files
                (walk_directory_fc store looks_like_file force_check_directories
                  fuel entry.1 (full_path ++ "/"))
            | _ => dinsert files full_path entry.1)
        []


/-- Modelled from the spec: root entry point of the
`force_check_directories` walker (see `walk_directory_fc`). -/
def list_files_with_cids_fc (store : Store α) (looks_like_file : String → Bool)
    (fuel : Nat) (cid : α) (force_check_directories : Bool) : Dict α :=
  walk_directory_fc store looks_like_file force_check_directories fuel cid ""


/-! ## DirectoryBuilder: `shared.create_directory_via_mfs`

The MFS staging area is modelled as a tree; because content addresses
are deterministic and injective on content, the finished tree itself
stands for the address `files stat --hash` reads back. -/

/-- A store object: a file leaf (carrying the address it links to) or a
directory node with named children. -/
inductive Tree (α : Type) where
  | leaf : α → Tree α
  | node : List (String × Tree α) → Tree α


/-- The ideal content-addressed store over trees: the address of a piece
of content is the content itself (deterministic and injective, as the
spec's ContentAddress requires).  Listing a directory returns its
entries as `(childAddress, name)` rows; listing a file succeeds with an
empty listing. -/
def treeStore : Store (Tree α)
  | .leaf _ => .ok []
  | .node es => .ok (es.map (fun e => (e.2, e.1)))


/-- Split a slash-separated MFS path into components (the store-side
interpretation of the path argument of `ipfs files cp --parents`). -/
def splitChars : List Char → List String
  | [] => [""]
  | c :: rest =>
    if c = '/' then "" :: splitChars rest
    else
      match splitChars rest with
      | [] => [String.mk [c]]
      | s :: ss => String.mk (c :: s.data) :: ss


/-- Split an MFS path string on `/`. -/
def splitPath (p : String) : List String := splitChars p.data


/-- `ipfs files cp --flush=false --parents /ipfs/CID path`: link `c` at
`comps` inside the staging tree, creating intermediate directories.  The
copy fails (`none`) when the destination name already exists in the
final directory, when an intermediate component exists as a file, or
when the path is empty. -/
def mfsCp : Tree α → List String → α → Option (Tree α)
  | .leaf _, _, _ => none
  | .node _, [], _ => none
  | .node es, [n], c =>
    if dmem es n then none else some (.node (es ++ [(n, .leaf c)]))
  | .node es, n :: rest, c =>
    match dlookup es n with
    | some (.leaf _) => none
    | some (.node es') =>
      (mfsCp (.node es') rest c).map
        (fun t' => .node (es.map (fun p => if p.1 = n then (n, t') else p)))
    | none =>
      (mfsCp (.node []) rest c).map (fun t' => .node (es ++ [(n, t')]))


/-- `shared.create_directory_via_mfs` (src/shared.py lines 672–753),
successful-path content: populate a fresh staging directory by copying
each entry of `files_dict` in order; a failed copy is logged as a
warning and skipped.  The returned tree is the content the final
`files stat --hash` read-back addresses. -/
def create_directory_via_mfs (files_dict : Dict α) : Tree α :=
  files_dict.foldl
    (fun t p =>
      match mfsCp t (splitPath p.1) p.2 with
      | some t' => t'
      | none => t)
    (.node [])


/-! ## Merger: `merge_roots_cmd.merge_root_cids` -/

/-- The body of the conflict-detection loop of `merge_root_cids`
(src/merge_roots_cmd.py lines 41–52), processing one `(filename,
file_cid)` row against the accumulated `(all_files, conflicted_files)`
state: a fresh path is inserted; a path already present with a different
address is marked conflicted (and a ConflictRecord logged); a duplicate
with the same address is ignored. -/
def mergeStep [DecidableEq α] (s : Dict α × List String) (nc : String × α) :
    Dict α × List String :=
  match dlookup s.1 nc.1 with
  | some c' => if c' ≠ nc.2 then (s.1, sinsert s.2 nc.1) else s
  | none => (dinsert s.1 nc.1 nc.2, s.2)


/-- The root loop of `merge_root_cids` (src/merge_roots_cmd.py lines
29–52): process each root's walk result in input order, skipping (with a
logged error) roots whose walk yielded nothing. -/
def merge_accumulate [DecidableEq α] (walks : List (Dict α)) :
    Dict α × List String :=
  walks.foldl
    (fun s files => if files.isEmpty then s else files.foldl mergeStep s)
    ([], [])


/-- The per-root walk results `merge_root_cids` accumulates, in input
root order. -/
def merge_walks (store : Store α) (looks_like_file : String → Bool)
    (fuel : Nat) (cids : List α) (force_check_directories : Bool) :
    List (Dict α) :=
  cids.map (fun cid =>
    list_files_with_cids_fc store looks_like_file fuel cid
      force_check_directories)


/-- The merged mapping after the conflict-removal loop
(src/merge_roots_cmd.py lines 54–60): every path marked conflicted is
deleted from `all_files`. -/
def merge_survivors [DecidableEq α] (walks : List (Dict α)) : Dict α :=
  (merge_accumulate walks).1.filter
    (fun p => p.1 ∉ (merge_accumulate walks).2)


/-- `merge_root_cids` (src/merge_roots_cmd.py lines 5–84): walk every
root (heuristic or exhaustive per `force_check_directories`), accumulate
with conflict detection, drop every conflicted path, and return `none`
when no file survives, else the directory built over the survivors.
The second component is the set of conflicted paths (the logged
ConflictRecords). -/
def merge_root_cids [DecidableEq α] (store : Store α)
    (looks_like_file : String → Bool) (fuel : Nat) (cids : List α)
    (force_check_directories : Bool) : Option (Tree α) × List String :=
  let walks := merge_walks store looks_like_file fuel cids
    force_check_directories
  let all_files := merge_survivors walks
  (if all_files.isEmpty then none
   else some (create_directory_via_mfs all_files),
   (merge_accumulate walks).2)


/-! ## Collector: `collect_cmd.collect_cids` -/

/-- The entry mapping built by `collect_cids` (src/collect_cmd.py lines
26–30): `{names.get(cid, cid): cid for cid in cids}` — one pass over the
inputs, each named by the `names` lookup or falling back to the
address's own string form, later duplicates overwriting earlier ones
(Python dict-comprehension semantics).  When `names` is `None` or empty
the comprehension `{cid: cid for cid in cids}` coincides with this. -/
def collect_name (names : Dict String) (cid : String) : String :=
  (dlookup names cid).getD cid


def collect_entries (cids : List String) (names : Dict String) : Dict String :=
  cids.foldl (fun d cid => dinsert d (collect_name names cid) cid) []


/-- `collect_cmd.collect_cids` (src/collect_cmd.py lines 5–42): build
the entry mapping, warn when duplicate names collapsed entries
(`len(entries) != len(cids)`), and build one directory over it.  The
boolean is whether the duplicate-name warning was printed.  No store
argument: the inputs' subgraphs are never listed or walked. -/
def collect_cids (cids : List String) (names : Dict String) :
    Tree String × Bool :=
  let entries := collect_entries cids names
  (create_directory_via_mfs entries, entries.length ≠ cids.length)


/-! ## ManifestPipeline: completeness validation and synthetic directories -/

/-- `shared.validate_xml_completeness` (src/shared.py lines 284–319):
`results` maps each identifier to the list of successfully fetched XML
kinds.  Returns the identifiers that have every required kind, and the
identifiers for which a `DATA_ERROR` was logged (either "No XML files
found" when the identifier is absent from `results`, or "Missing XML
files" when some required kind was not fetched). -/
def validate_xml_completeness (identifiers : List String)
    (results : List (String × List String)) (required_types : List String) :
    List String × List String :=
  identifiers.foldl
    (fun s identifier =>
      match dlookup results identifier with
      | none => (s.1, s.2 ++ [identifier])
      | some available_types =>
        let missing_types := required_types.filter
          (fun t => t ∉ available_types)
        if missing_types.isEmpty then (s.1 ++ [identifier], s.2)
        else (s.1, s.2 ++ [identifier]))
    ([], [])


/-- `files_cmd.create_synthetic_directory` (src/files_cmd.py lines
33–90): walk the declared member names from `files.xml` in order; an
empty name is skipped silently, a name absent from `available_files` is
logged as a `DATA_ERROR` and omitted, a resolved name is appended to the
links.  With no resolved link, no directory is produced (`none`);
otherwise the directory is built over the links (collapsed to a dict).
The second component lists the members for which a `DATA_ERROR` was
logged. -/
def synthetic_links (files_data : List String) (available_files : Dict α) :
    List (String × α) × List String :=
  files_data.foldl
    (fun (s : List (String × α) × List String) file_name =>
      if file_name = "" then s
      else
        match dlookup available_files file_name with
        | none => (s.1, s.2 ++ [file_name])
        | some file_cid => (s.1 ++ [(file_name, file_cid)], s.2))
    ([], [])


def create_synthetic_directory (files_data : List String)
    (available_files : Dict α) : Option (Tree α) × List String :=
  let s := synthetic_links files_data available_files
  if s.1.isEmpty then (none, s.2)
  else (some (create_directory_via_mfs (dupdate [] s.1)), s.2)


/-! ## ArchiveExporter: `shared.generate_shallow_car_file` -/

/-- Opaque block contents. -/
abbrev Bytes := List Nat


/-- The environment of one CAR export: `block_get` is
`ipfs block get` (`none` = non-zero exit); `put_ok i` is whether the
`i`-th `car put-block` invocation exits successfully (index 0 is the
root block); `put_cid` is the address the `car` tool computes and
reports for the bytes it wrote. -/
structure CarEnv where
  block_get : Nat → Option Bytes
  put_ok : Nat → Bool
  put_cid : Bytes → Nat


/-- The outcome of `generate_shallow_car_file`: the function's boolean
return value, the blocks present in the archive file in write order,
the designated root recorded by `--set-root`, and the child addresses
for which a skip/mismatch warning was logged. -/
structure CarResult where
  success : Bool
  blocks : List (Nat × Bytes)
  root : Option Nat
  warnings : List Nat
deriving DecidableEq


/-- The child-block loop of `generate_shallow_car_file` (src/shared.py
lines 568–600), over the enumerated children: a fetch failure or a write
failure logs a warning and appends nothing; a successful write appends
the block under the address the write step reported, then a mismatch
against the expected child address logs a warning — after the append. -/
def car_children (env : CarEnv) (l : List (Nat × Nat))
    (r : List (Nat × Bytes) × List Nat) : List (Nat × Bytes) × List Nat :=
  l.foldl
    (fun (r : List (Nat × Bytes) × List Nat) ic =>
      match env.block_get ic.2 with
      | none => (r.1, r.2 ++ [ic.2])
      | some bytes =>
        if !env.put_ok (ic.1 + 1) then (r.1, r.2 ++ [ic.2])
        else
          let written := r.1 ++ [(env.put_cid bytes, bytes)]
          if env.put_cid bytes ≠ ic.2 then (written, r.2 ++ [ic.2])
          else (written, r.2))
    r


/-- `shared.generate_shallow_car_file` (src/shared.py lines 513–613):
write the root block first with `--set-root` (aborting with `False` on
fetch failure, write failure, or root address mismatch), then run the
child-block loop.  Nothing is ever fetched transitively. -/
def generate_shallow_car_file (env : CarEnv) (root_cid : Nat)
    (child_cids : List Nat) : CarResult :=
  match env.block_get root_cid with
  | none => ⟨false, [], none, []⟩
  | some root_bytes =>
    if !env.put_ok 0 then ⟨false, [], none, []⟩
    else
      let out := env.put_cid root_bytes
      if out ≠ root_cid then ⟨false, [(out, root_bytes)], some out, []⟩
      else
        let r := car_children env child_cids.enum ([(out, root_bytes)], [])
        ⟨true, r.1, some out, r.2⟩


/-! ## DirectoryBuilder failure model (for the staging-area contract) -/

/-- The failure environment of one `create_directory_via_mfs` call:
whether the staging `files mkdir` succeeds, which `files cp`
invocations succeed (keyed by the entry's path), and whether the final
`files stat --hash` read-back succeeds.  Intermediate and final
`files flush` failures are warnings only and do not influence the
result, so they are not modelled. -/
structure BuildEnv where
  mkdir_ok : Bool
  cp_ok : String → Bool
  stat_ok : Bool


/-- `shared.create_directory_via_mfs` (src/shared.py lines 672–753) with
its failure behaviour: `mkdir` failure raises (`error`); a failed
`files cp` is logged as a warning and the entry skipped; `stat` failure
raises.  The boolean records whether the uniquely named staging area was
removed by the `finally` clause — which runs on every exit path. -/
def create_directory_via_mfs_run (env : BuildEnv) (files_dict : Dict α) :
    Except Unit (Tree α) × Bool :=
  if !env.mkdir_ok then (.error (), true)
  else
    let t := files_dict.foldl
      (fun t p =>
        if env.cp_ok p.1 then
          match mfsCp t (splitPath p.1) p.2 with
          | some t' => t'
          | none => t
        else t)
      (.node [])
    if env.stat_ok then (.ok t, true) else (.error (), true)


/-! ## C3: the completeness gate -/

/-- The Boolean completeness test: the identifier appears in `results`
with every required kind fetched. -/
def completeFor (results : List (String × List String))
    (required_types : List String) (i : String) : Bool :=
  match dlookup results i with
  | some available_types => required_types.all (fun t => decide (t ∈ available_types))
  | none => false


/-! ## C8: the shallow archive -/

/-- The block the child loop of `generate_shallow_car_file` appends for
the enumerated child `ic = (index, child_cid)`: nothing on fetch or
write failure, else the written bytes under the address the write step
reported. -/
def carBlockOf (env : CarEnv) (ic : Nat × Nat) : Option (Nat × Bytes) :=
  match env.block_get ic.2 with
  | none => none
  | some bytes =>
    if env.put_ok (ic.1 + 1) then some (env.put_cid bytes, bytes) else none


/-- Whether the child loop logs a warning for the enumerated child:
fetch failure, write failure, or address mismatch. -/
def carWarnOf (env : CarEnv) (ic : Nat × Nat) : Bool :=
  match env.block_get ic.2 with
  | none => true
  | some bytes =>
    if env.put_ok (ic.1 + 1) then decide (env.put_cid bytes ≠ ic.2) else true


/-- The value a later occurrence of path `p` is compared against: the
value already in `d`, or failing that the first value for `p` in the
remaining stream `L`. -/
def firstVal (L : List (String × α)) (p : String) : Option α :=
  (L.find? (fun q => q.1 = p)).map Prod.snd


def mergeCmp (d : Dict α) (L : List (String × α)) (p : String) : Option α :=
  match dlookup d p with
  | some v => some v
  | none => firstVal L p


/-- The single-entry classification step of `walk_directory`. -/
def walkStep (store : Store α) (known_files : List String) (fuel : Nat)
    (pre : String) (files : Dict α) (entry : α × String) : Dict α :=
  let full_path := pre ++ entry.2
  if full_path ∈ known_files then
    dinsert files full_path entry.1
  else
    match store entry.1 with
    | .ok (_ :: _) =>
      dupdate files (walk_directory store known_files fuel entry.1 (full_path ++ "/"))
    | _ => dinsert files full_path entry.1


/-! ## C5: heuristic vs exhaustive divergence -/

/-- A sample extension heuristic: does the name end in `".jpg"`?
(The spec's "looks like a file" predicate, instantiated for the test
case; expressed on the character list so it evaluates by `rfl`.) -/
def ends_with_jpg (n : String) : Bool :=
  n.data.reverse.take 4 = ['g', 'p', 'j', '.']


/-! ## C4: round trip — infrastructure

Paths, components, and the structure of built trees. -/

/-- An entry name contains no path separator. -/
def noSlash (n : String) : Prop := '/' ∉ n.data


/-- Join path components with `/` (the inverse of `splitPath` on valid
component lists). -/
def joinComps : List String → String
  | [] => ""
  | [n] => n
  | n :: rest => n ++ "/" ++ joinComps rest


/-- Navigate a tree along path components. -/
def subtreeAt : Tree α → List String → Option (Tree α)
  | t, [] => some t
  | .leaf _, _ :: _ => none
  | .node es, n :: rest =>
    match dlookup es n with
    | none => none
    | some t' => subtreeAt t' rest


mutual
/-- Tree height: leaves have height 0. -/
def Tree.height : Tree α → Nat
  | .leaf _ => 0
  | .node es => 1 + heightEntries es
def heightEntries : List (String × Tree α) → Nat
  | [] => 0
  | e :: es => max (Tree.height e.2) (heightEntries es)
end

mutual
/-- The path→address mapping a walk of the tree discovers, purely on the
tree: a leaf child or an empty-node child is a file at `pre ++ name`; a
non-empty node child contributes its own paths under
`pre ++ name ++ "/"`. -/
def treePaths : Tree α → String → List (String × Tree α)
  | .leaf _, _ => []
  | .node es, pre => entryPaths es pre
def entryPaths : List (String × Tree α) → String → List (String × Tree α)
  | [], _ => []
  | (n, t) :: es, pre =>
    (match t with
     | .leaf c => [(pre ++ n, Tree.leaf c)]
     | .node [] => [(pre ++ n, Tree.node [])]
     | .node (e :: es') => treePaths (Tree.node (e :: es')) (pre ++ n ++ "/"))
    ++ entryPaths es pre
end

/-- Well-formedness of a built staging tree: entry names within a node
are distinct, nonempty and slash-free; children are well-formed; and a
child that is a directory node is nonempty (the builder only creates an
interior directory to put something inside it). -/
inductive Tree.Good : Tree α → Prop where
  | leaf (c : α) : Tree.Good (.leaf c)
  | node (es : List (String × Tree α))
      (hnames : (es.map Prod.fst).Nodup)
      (hvalid : ∀ e ∈ es, e.1 ≠ "" ∧ noSlash e.1)
      (hch : ∀ e ∈ es, Tree.Good e.2)
      (hne : ∀ e ∈ es, ∀ es', e.2 = Tree.node es' → es' ≠ []) :
      Tree.Good (.node es)


/-! ### Membership in `treePaths` corresponds to leaves of the tree -/

/-- The paths contributed by one directory entry. -/
def entryOnePaths (pre : String) : String × Tree α → List (String × Tree α)
  | (n, t) =>
    match t with
    | .leaf c => [(pre ++ n, Tree.leaf c)]
    | .node [] => [(pre ++ n, Tree.node [])]
    | .node (e :: es') => treePaths (Tree.node (e :: es')) (pre ++ n ++ "/")


/-! ## Theorems -/

@[simp] theorem dmem_nil (k : String) : dmem ([] : Dict α) k = false := rfl


@[simp] theorem dlookup_nil (k : String) : dlookup ([] : Dict α) k = none := rfl


@[simp] theorem dlookup_cons (p : String × α) (d : Dict α) (k : String) :
    dlookup (p :: d) k = if p.1 = k then some p.2 else dlookup d k := by
  by_cases h : p.1 = k <;> simp [dlookup, List.find?_cons, h]


@[simp] theorem dmem_cons (p : String × α) (d : Dict α) (k : String) :
    dmem (p :: d) k = (p.1 = k || dmem d k) := by
  by_cases h : p.1 = k <;> simp [dmem, h]


theorem dmem_iff_mem_dkeys (d : Dict α) (k : String) :
    dmem d k = true ↔ k ∈ dkeys d := by
  induction d with
  | nil => simp [dkeys]
  | cons p d ih =>
    simp only [dmem_cons, dkeys, List.map_cons, List.mem_cons, Bool.or_eq_true,
      decide_eq_true_eq]
    rw [← dkeys, ih]
    constructor
    · rintro (h | h)
      · exact Or.inl h.symm
      · exact Or.inr h
    · rintro (h | h)
      · exact Or.inl h.symm
      · exact Or.inr h


theorem dmem_eq_false_iff (d : Dict α) (k : String) :
    dmem d k = false ↔ k ∉ dkeys d := by
  rw [← Bool.not_eq_true, not_iff_not]
  exact dmem_iff_mem_dkeys d k


theorem dlookup_eq_none_iff (d : Dict α) (k : String) :
    dlookup d k = none ↔ k ∉ dkeys d := by
  induction d with
  | nil => simp [dkeys]
  | cons p d ih =>
    by_cases h : p.1 = k
    · simp [h, dkeys]
    · simp only [dlookup_cons, if_neg h, ih, dkeys, List.map_cons, List.mem_cons]
      constructor
      · intro hn hc
        rcases hc with hc | hc
        · exact h hc.symm
        · exact hn hc
      · intro hn
        exact fun hc => hn (Or.inr hc)


theorem dlookup_isSome_iff (d : Dict α) (k : String) :
    (dlookup d k).isSome ↔ k ∈ dkeys d := by
  rw [Option.isSome_iff_ne_none, ne_eq, dlookup_eq_none_iff, not_not]


@[simp] theorem dkeys_append (d e : Dict α) :
    dkeys (d ++ e) = dkeys d ++ dkeys e := by
  simp [dkeys]


theorem dkeys_dinsert (d : Dict α) (k : String) (v : α) :
    dkeys (dinsert d k v) = if k ∈ dkeys d then dkeys d else dkeys d ++ [k] := by
  by_cases h : k ∈ dkeys d
  · rw [dinsert, if_pos ((dmem_iff_mem_dkeys d k).mpr h), if_pos h]
    simp only [dkeys, List.map_map]
    apply List.map_congr_left
    intro p _
    by_cases hp : p.1 = k <;> simp [hp]
  · have hm : dmem d k = false := (dmem_eq_false_iff d k).mpr h
    rw [dinsert, hm, if_neg h]
    simp [dkeys]


theorem mem_dkeys_dinsert (d : Dict α) (k k' : String) (v : α) :
    k' ∈ dkeys (dinsert d k v) ↔ k' ∈ dkeys d ∨ k' = k := by
  rw [dkeys_dinsert]
  by_cases h : k ∈ dkeys d
  · rw [if_pos h]
    constructor
    · exact Or.inl
    · rintro (h' | rfl)
      · exact h'
      · exact h
  · rw [if_neg h]; simp


theorem dlookup_overwrite_self (d : Dict α) (k : String) (v : α)
    (h : k ∈ dkeys d) :
    dlookup (d.map (fun p => if p.1 = k then (k, v) else p)) k = some v := by
  induction d with
  | nil => simp [dkeys] at h
  | cons p d ih =>
    by_cases hp : p.1 = k
    · simp [hp]
    · simp only [dkeys, List.map_cons, List.mem_cons] at h
      rcases h with h | h
      · exact absurd h.symm hp
      · simpa [hp] using ih h


theorem dlookup_overwrite_ne (d : Dict α) (k k' : String) (v : α) (h : k' ≠ k) :
    dlookup (d.map (fun p => if p.1 = k then (k, v) else p)) k' = dlookup d k' := by
  induction d with
  | nil => simp
  | cons p d ih =>
    by_cases hp : p.1 = k
    · have hk : ¬ (k = k') := fun hc => h hc.symm
      have hpk : ¬ (p.1 = k') := by rw [hp]; exact hk
      simp [hp, hk, hpk, ih]
    · simp only [List.map_cons]
      rw [if_neg hp]
      by_cases hpk : p.1 = k'
      · simp [hpk]
      · simp [hpk, ih]


theorem dlookup_append_single_ne (d : Dict α) (k k' : String) (v : α)
    (h : k' ≠ k) : dlookup (d ++ [(k, v)]) k' = dlookup d k' := by
  induction d with
  | nil => simp [Ne.symm h]
  | cons p d ih =>
    by_cases hpk : p.1 = k'
    · simp [hpk]
    · simp [hpk, ih]


theorem dlookup_dinsert_self (d : Dict α) (k : String) (v : α) :
    dlookup (dinsert d k v) k = some v := by
  by_cases h : dmem d k
  · rw [dinsert, if_pos h]
    exact dlookup_overwrite_self d k v ((dmem_iff_mem_dkeys d k).mp h)
  · rw [dinsert, if_neg h]
    rw [Bool.not_eq_true, dmem_eq_false_iff] at h
    induction d with
    | nil => simp
    | cons p d ih =>
      simp only [dkeys, List.map_cons, List.mem_cons, not_or] at h
      have hp : ¬ p.1 = k := fun hc => h.1 hc.symm
      simpa [hp] using ih h.2


theorem dlookup_dinsert_ne (d : Dict α) (k k' : String) (v : α) (h : k' ≠ k) :
    dlookup (dinsert d k v) k' = dlookup d k' := by
  by_cases hm : dmem d k
  · rw [dinsert, if_pos hm]
    exact dlookup_overwrite_ne d k k' v h
  · rw [dinsert, if_neg hm]
    exact dlookup_append_single_ne d k k' v h


theorem dkeys_nodup_dinsert (d : Dict α) (k : String) (v : α)
    (h : (dkeys d).Nodup) : (dkeys (dinsert d k v)).Nodup := by
  rw [dkeys_dinsert]
  by_cases hm : k ∈ dkeys d
  · rwa [if_pos hm]
  · rw [if_neg hm]
    simpa [List.nodup_append] using ⟨h, hm⟩


theorem missing_isEmpty (required available : List String) :
    (required.filter (fun t => t ∉ available)).isEmpty
      = required.all (fun t => decide (t ∈ available)) := by
  induction required with
  | nil => rfl
  | cons t ts ih =>
    simp only [List.filter_cons, List.all_cons, decide_not] at ih ⊢
    by_cases h : t ∈ available
    · simp [h, ih]
    · simp [h]


theorem validate_foldl (identifiers : List String)
    (results : List (String × List String)) (required_types : List String)
    (s : List String × List String) :
    identifiers.foldl
      (fun s identifier =>
        match dlookup results identifier with
        | none => (s.1, s.2 ++ [identifier])
        | some available_types =>
          let missing_types := required_types.filter
            (fun t => t ∉ available_types)
          if missing_types.isEmpty then (s.1 ++ [identifier], s.2)
          else (s.1, s.2 ++ [identifier]))
      s =
    (s.1 ++ identifiers.filter (completeFor results required_types),
     s.2 ++ identifiers.filter (fun i => !completeFor results required_types i)) := by
  induction identifiers generalizing s with
  | nil => simp
  | cons i ids ih =>
    rw [List.foldl_cons, ih]
    rcases h : dlookup results i with _ | av
    · have hok : completeFor results required_types i = false := by
        simp [completeFor, h]
      simp [h, List.filter_cons, hok]
    · have hmiss : (required_types.filter (fun t => t ∉ av)).isEmpty
          = completeFor results required_types i := by
        rw [missing_isEmpty]
        simp [completeFor, h]
      simp only [h]
      rw [hmiss]
      by_cases hc : completeFor results required_types i = true
      · rw [if_pos hc]
        simp [List.filter_cons, hc]
      · have hc' : completeFor results required_types i = false := by
          simpa using hc
        rw [if_neg hc]
        simp [List.filter_cons, hc']


theorem completeFor_iff (results : List (String × List String))
    (required_types : List String) (i : String) :
    completeFor results required_types i = true
      ↔ ∃ kinds, dlookup results i = some kinds ∧ required_types ⊆ kinds := by
  unfold completeFor
  rcases h : dlookup results i with _ | av
  · simp
  · simp [List.all_eq_true, List.subset_def]


/-- C3: the completeness validation returns exactly those identifiers
whose set of successfully fetched manifest kinds contains every required
kind; every other identifier — including one with no fetched manifests
at all, i.e. absent from `results` — appears in the DATA_ERROR list and
is excluded from the valid list. -/
theorem validate_completeness_gate (identifiers : List String)
    (results : List (String × List String)) (required_types : List String) :
    (∀ i, i ∈ (validate_xml_completeness identifiers results required_types).1
        ↔ i ∈ identifiers ∧
          ∃ kinds, dlookup results i = some kinds ∧ required_types ⊆ kinds)
    ∧ (∀ i, i ∈ (validate_xml_completeness identifiers results required_types).2
        ↔ i ∈ identifiers ∧
          ¬ ∃ kinds, dlookup results i = some kinds ∧ required_types ⊆ kinds) := by
  unfold validate_xml_completeness
  rw [validate_foldl]
  simp only [List.nil_append]
  constructor
  · intro i
    rw [List.mem_filter, completeFor_iff]
  · intro i
    rw [List.mem_filter]
    rw [← completeFor_iff results required_types i]
    cases completeFor results required_types i <;> simp


/-! ## C9: the shallow Collector -/

theorem dlookup_foldl_name_insert (l : List String) (f : String → String)
    (d : Dict String) (k : String) :
    dlookup (l.foldl (fun d c => dinsert d (f c) c) d) k
      = match l.reverse.find? (fun c => f c = k) with
        | some c => some c
        | none => dlookup d k := by
  induction l generalizing d with
  | nil => simp
  | cons c l ih =>
    rw [List.foldl_cons, ih, List.reverse_cons, List.find?_append]
    cases hf : l.reverse.find? (fun c => decide (f c = k)) with
    | some c' => simp [hf]
    | none =>
      simp only [hf]
      by_cases hk : f c = k
      · have h1 : dlookup (dinsert d (f c) c) k = some c := by
          rw [← hk]
          exact dlookup_dinsert_self d (f c) c
        rw [hk] at h1
        simp [List.find?, hk, h1]
      · have h1 : dlookup (dinsert d (f c) c) k = dlookup d k :=
          dlookup_dinsert_ne d (f c) k c (fun hc => hk hc.symm)
        simp [List.find?, hk, h1]


theorem foldl_name_insert_nodup_eq (l : List String) (f : String → String)
    (d : Dict String) (h : (dkeys d ++ l.map f).Nodup) :
    l.foldl (fun d c => dinsert d (f c) c) d = d ++ l.map (fun c => (f c, c)) := by
  induction l generalizing d with
  | nil => simp
  | cons c l ih =>
    have hdisj : f c ∉ dkeys d := by
      rw [List.nodup_append] at h
      intro hc
      exact h.2.2 hc (List.mem_cons_self (f c) (l.map f))
    have hins : dinsert d (f c) c = d ++ [(f c, c)] := by
      rw [dinsert, if_neg]
      rw [Bool.not_eq_true, dmem_eq_false_iff]
      exact hdisj
    rw [List.foldl_cons, hins, ih]
    · simp
    · simpa [List.append_assoc] using h


theorem dinsert_length_le (d : Dict α) (k : String) (v : α) :
    (dinsert d k v).length ≤ d.length + 1 := by
  rw [dinsert]
  split
  · simp
  · simp


theorem foldl_name_insert_length_le (l : List String) (f : String → String)
    (d : Dict String) :
    (l.foldl (fun d c => dinsert d (f c) c) d).length ≤ d.length + l.length := by
  induction l generalizing d with
  | nil => simp
  | cons c l ih =>
    rw [List.foldl_cons]
    calc (l.foldl (fun d c => dinsert d (f c) c) (dinsert d (f c) c)).length
        ≤ (dinsert d (f c) c).length + l.length := ih _
      _ ≤ (d.length + 1) + l.length := by
            exact Nat.add_le_add_right (dinsert_length_le d (f c) c) _
      _ = d.length + (c :: l).length := by simp [Nat.add_assoc, Nat.add_comm 1]


theorem foldl_name_insert_length_lt (l : List String) (f : String → String)
    (d : Dict String) (hd : (dkeys d).Nodup)
    (h : ¬ (dkeys d ++ l.map f).Nodup) :
    (l.foldl (fun d c => dinsert d (f c) c) d).length < d.length + l.length := by
  induction l generalizing d with
  | nil => simp at h; exact absurd hd h
  | cons c l ih =>
    rw [List.foldl_cons]
    by_cases hm : f c ∈ dkeys d
    · have hlen : (dinsert d (f c) c).length = d.length := by
        rw [dinsert, if_pos ((dmem_iff_mem_dkeys d (f c)).mpr hm)]
        simp
      calc (l.foldl (fun d c => dinsert d (f c) c) (dinsert d (f c) c)).length
          ≤ (dinsert d (f c) c).length + l.length := foldl_name_insert_length_le l f _
        _ = d.length + l.length := by rw [hlen]
        _ < d.length + (c :: l).length := by simp
    · have hins : dinsert d (f c) c = d ++ [(f c, c)] := by
        rw [dinsert, if_neg]
        rw [Bool.not_eq_true, dmem_eq_false_iff]
        exact hm
      have hviol : ¬ (dkeys (d ++ [(f c, c)]) ++ l.map f).Nodup := by
        intro hc
        apply h
        simpa [List.append_assoc] using hc
      have hd' : (dkeys (d ++ [(f c, c)])).Nodup := by
        rw [dkeys_append, List.nodup_append]
        refine ⟨hd, by simp [dkeys], ?_⟩
        intro a ha hb
        simp [dkeys] at hb
        exact hm (hb ▸ ha)
      calc (l.foldl (fun d c => dinsert d (f c) c) (dinsert d (f c) c)).length
          < (d ++ [(f c, c)]).length + l.length := by rw [hins]; exact ih _ hd' hviol
        _ = d.length + (c :: l).length := by simp [Nat.add_assoc, Nat.add_comm 1]


theorem dkeys_nodup_foldl_name_insert (l : List String) (f : String → String)
    (d : Dict String) (h : (dkeys d).Nodup) :
    (dkeys (l.foldl (fun d c => dinsert d (f c) c) d)).Nodup := by
  induction l generalizing d with
  | nil => exact h
  | cons c l ih => exact ih _ (dkeys_nodup_dinsert d (f c) c h)


theorem dlookup_collect_entries (cids : List String) (names : Dict String)
    (k : String) :
    dlookup (collect_entries cids names) k
      = cids.reverse.find? (fun c => collect_name names c = k) := by
  rw [collect_entries, dlookup_foldl_name_insert]
  cases cids.reverse.find? (fun c => decide (collect_name names c = k)) <;> simp


/-- C9: the Collector builds its mapping with one entry per distinct entry
name, each input named by the `names` lookup or falling back to the
address's own string form, with a later input silently overwriting an
earlier one that maps to the same name (the lookup returns the last such
input) and the duplicate warning emitted exactly when names collide; the
result is the directory built over that mapping, with no store access
(the inputs' subgraphs are never listed). -/
theorem collect_shallow (cids : List String) (names : Dict String) :
    (∀ k, dlookup (collect_entries cids names) k
        = cids.reverse.find? (fun c => collect_name names c = k))
    ∧ (dkeys (collect_entries cids names)).Nodup
    ∧ (∀ k, k ∈ dkeys (collect_entries cids names)
        ↔ k ∈ cids.map (collect_name names))
    ∧ ((collect_cids cids names).2 = true
        ↔ ¬ (cids.map (collect_name names)).Nodup)
    ∧ (collect_cids cids names).1
        = create_directory_via_mfs (collect_entries cids names) := by
  refine ⟨dlookup_collect_entries cids names, ?_, ?_, ?_, rfl⟩
  · exact dkeys_nodup_foldl_name_insert cids (collect_name names) [] (by simp [dkeys])
  · intro k
    rw [← dlookup_isSome_iff, dlookup_collect_entries, List.find?_isSome]
    constructor
    · rintro ⟨c, hc, hk⟩
      rw [List.mem_reverse] at hc
      exact List.mem_map.mpr ⟨c, hc, by simpa using hk⟩
    · intro hk
      rcases List.mem_map.mp hk with ⟨c, hc, hck⟩
      exact ⟨c, List.mem_reverse.mpr hc, by simpa using hck⟩
  · show decide ((collect_entries cids names).length ≠ cids.length) = true ↔ _
    rw [decide_eq_true_iff]
    constructor
    · intro hne hnd
      apply hne
      rw [collect_entries, foldl_name_insert_nodup_eq cids (collect_name names) []
        (by simpa [dkeys] using hnd)]
      simp
    · intro hnd
      have hlt := foldl_name_insert_length_lt cids (collect_name names) []
        (by simp [dkeys]) (by simpa [dkeys] using hnd)
      simp only [List.length_nil, Nat.zero_add] at hlt
      rw [collect_entries]
      omega


/-! ## C7: partial synthetic directories -/

theorem synthetic_links_foldl (files_data : List String)
    (available_files : Dict α) (s : List (String × α) × List String) :
    files_data.foldl
      (fun (s : List (String × α) × List String) file_name =>
        if file_name = "" then s
        else
          match dlookup available_files file_name with
          | none => (s.1, s.2 ++ [file_name])
          | some file_cid => (s.1 ++ [(file_name, file_cid)], s.2))
      s
    = (s.1 ++ files_data.filterMap
        (fun n => if n = "" then none
                  else (dlookup available_files n).map (fun c => (n, c))),
       s.2 ++ files_data.filter
        (fun n => !(n = "" : Bool) && (dlookup available_files n).isNone)) := by
  induction files_data generalizing s with
  | nil => simp
  | cons n files ih =>
    rw [List.foldl_cons, ih]
    by_cases hn : n = ""
    · simp [hn, List.filterMap_cons, List.filter_cons]
    · rcases h : dlookup available_files n with _ | c
      · simp [hn, h, List.filterMap_cons, List.filter_cons]
      · simp [hn, h, List.filterMap_cons, List.filter_cons]


theorem synthetic_links_spec (files_data : List String)
    (available_files : Dict α) :
    synthetic_links files_data available_files
    = (files_data.filterMap
        (fun n => if n = "" then none
                  else (dlookup available_files n).map (fun c => (n, c))),
       files_data.filter
        (fun n => !(n = "" : Bool) && (dlookup available_files n).isNone)) := by
  rw [synthetic_links, synthetic_links_foldl]
  simp


/-- C7: every member name declared in the files manifest but absent from
the tree's path-to-address mapping is logged as a DATA_ERROR and omitted
from the links the synthetic directory is built over; whenever at least
one (non-empty) declared member resolves, a directory is still produced
and returned, and when none resolves no directory is produced. -/
theorem synthetic_directory_partial (files_data : List String)
    (available_files : Dict α) :
    (∀ name ∈ files_data, name ≠ "" → name ∉ dkeys available_files →
      name ∈ (create_synthetic_directory files_data available_files).2
        ∧ name ∉ (synthetic_links files_data available_files).1.map Prod.fst)
    ∧ ((∃ name ∈ files_data, name ≠ "" ∧ name ∈ dkeys available_files) →
        (create_synthetic_directory files_data available_files).1
          = some (create_directory_via_mfs
              (dupdate [] (synthetic_links files_data available_files).1)))
    ∧ ((¬ ∃ name ∈ files_data, name ≠ "" ∧ name ∈ dkeys available_files) →
        (create_synthetic_directory files_data available_files).1 = none) := by
  have hls := synthetic_links_spec files_data available_files
  have hlinks_ne : (synthetic_links files_data available_files).1 ≠ []
      ↔ ∃ name ∈ files_data, name ≠ "" ∧ name ∈ dkeys available_files := by
    rw [hls]
    simp only [ne_eq]
    rw [← List.isEmpty_iff, Bool.not_eq_true, List.isEmpty_eq_false_iff_exists_mem]
    constructor
    · rintro ⟨p, hp⟩
      rcases List.mem_filterMap.mp hp with ⟨n, hn, hf⟩
      by_cases h0 : n = ""
      · simp [h0] at hf
      · rcases hx : dlookup available_files n with _ | c
        · simp [h0, hx] at hf
        · refine ⟨n, hn, h0, ?_⟩
          rw [← dlookup_isSome_iff, hx]
          rfl
    · rintro ⟨n, hn, h0, hmem⟩
      rcases Option.isSome_iff_exists.mp ((dlookup_isSome_iff _ _).mpr hmem)
        with ⟨c, hc⟩
      exact ⟨(n, c), List.mem_filterMap.mpr ⟨n, hn, by simp [h0, hc]⟩⟩
  refine ⟨?_, ?_, ?_⟩
  · intro name hname h0 habs
    have hnone : dlookup available_files name = none :=
      (dlookup_eq_none_iff _ _).mpr habs
    constructor
    · show name ∈ (if (synthetic_links files_data available_files).1.isEmpty
        then _ else _ : Option (Tree α) × List String).2
      have h2 : (synthetic_links files_data available_files).2
          = files_data.filter
              (fun n => !(n = "" : Bool) && (dlookup available_files n).isNone) := by
        rw [hls]
      split <;>
        · simp only [h2]
          exact List.mem_filter.mpr ⟨hname, by simp [h0, hnone]⟩
    · intro hm
      rcases List.mem_map.mp hm with ⟨p, hp, hfst⟩
      rw [hls] at hp
      rcases List.mem_filterMap.mp hp with ⟨n, _, hf⟩
      by_cases hn0 : n = ""
      · simp [hn0] at hf
      · rcases hx : dlookup available_files n with _ | c
        · simp [hn0, hx] at hf
        · have hpnc : p = (n, c) := by
            have := hf
            simp [hn0, hx] at this
            exact this.symm
          rw [hpnc] at hfst
          simp only at hfst
          rw [hfst, hnone] at hx
          exact Option.noConfusion hx
  · intro hex
    have hne := hlinks_ne.mpr hex
    have hcond : (synthetic_links files_data available_files).1.isEmpty = false := by
      rcases List.exists_mem_of_ne_nil _ hne with ⟨x, hx⟩
      rw [List.isEmpty_eq_false_iff_exists_mem]
      exact ⟨x, hx⟩
    rw [create_synthetic_directory]
    simp [hcond]
  · intro hnex
    have hnil : (synthetic_links files_data available_files).1 = [] := by
      by_contra hc
      exact hnex (hlinks_ne.mp hc)
    rw [create_synthetic_directory]
    simp [hnil]


/-! ## C10: staging-area contract of the DirectoryBuilder -/

theorem foldl_skip_eq_foldl_filter (l : List β) (q : β → Bool)
    (g : γ → β → γ) (init : γ) :
    l.foldl (fun t p => if q p then g t p else t) init
      = (l.filter q).foldl g init := by
  induction l generalizing init with
  | nil => rfl
  | cons p l ih =>
    by_cases h : q p <;> simp [List.filter_cons, h, ih]


/-- C10: the directory build tolerates individual entry-copy failures —
with the staging `mkdir` and the final `stat` read-back succeeding, the
result is exactly the directory built over the entries whose copy
succeeded (a failed entry is silently absent, a directory is still
returned for the rest); only `mkdir` or `stat` failures raise; and the
staging area is removed on every exit path, including the raising
ones. -/
theorem build_staging_tolerance (env : BuildEnv) (files_dict : Dict α) :
    (env.mkdir_ok = true → env.stat_ok = true →
      (create_directory_via_mfs_run env files_dict).1
        = .ok (create_directory_via_mfs
            (files_dict.filter (fun p => env.cp_ok p.1))))
    ∧ (env.mkdir_ok = false →
      (create_directory_via_mfs_run env files_dict).1 = .error ())
    ∧ (env.stat_ok = false →
      (create_directory_via_mfs_run env files_dict).1 = .error ())
    ∧ (create_directory_via_mfs_run env files_dict).2 = true := by
  refine ⟨?_, ?_, ?_, ?_⟩
  · intro hm hs
    rw [create_directory_via_mfs_run, create_directory_via_mfs]
    rw [foldl_skip_eq_foldl_filter files_dict (fun p => env.cp_ok p.1)
      (fun t p => match mfsCp t (splitPath p.1) p.2 with
        | some t' => t'
        | none => t) (Tree.node [])]
    simp [hm, hs]
  · intro hm
    rw [create_directory_via_mfs_run]
    simp [hm]
  · intro hs
    rw [create_directory_via_mfs_run]
    by_cases hm : env.mkdir_ok <;> simp [hm, hs]
  · rw [create_directory_via_mfs_run]
    by_cases hm : env.mkdir_ok
    · by_cases hs : env.stat_ok <;> simp [hm, hs]
    · simp [hm]


/-- Witness for C10 at a concrete environment and mapping: the copy of
`"b.txt"` fails, and the build returns the directory over the surviving
entry alone. -/
theorem build_staging_tolerance_witness :
    (create_directory_via_mfs_run
      (⟨true, fun p => p ≠ "b.txt", true⟩ : BuildEnv)
      [("a.txt", (1 : Nat)), ("b.txt", 2)]).1
      = .ok (create_directory_via_mfs [("a.txt", (1 : Nat))]) := by
  have h := (build_staging_tolerance
    (⟨true, fun p => p ≠ "b.txt", true⟩ : BuildEnv)
    [("a.txt", (1 : Nat)), ("b.txt", 2)]).1 rfl rfl
  rw [h]
  rfl


theorem car_children_foldl (env : CarEnv) (l : List (Nat × Nat))
    (r : List (Nat × Bytes) × List Nat) :
    car_children env l r
    = (r.1 ++ l.filterMap (carBlockOf env),
       r.2 ++ (l.filter (carWarnOf env)).map Prod.snd) := by
  induction l generalizing r with
  | nil => simp [car_children]
  | cons ic l ih =>
    rw [car_children, List.foldl_cons, ← car_children, ih]
    rcases hb : env.block_get ic.2 with _ | bytes
    · simp [List.filterMap_cons, List.filter_cons, carBlockOf, carWarnOf, hb]
    · by_cases hp : env.put_ok (ic.1 + 1)
      · by_cases hm : env.put_cid bytes = ic.2
        · simp [List.filterMap_cons, List.filter_cons, carBlockOf, carWarnOf,
            hb, hp, hm]
        · simp [List.filterMap_cons, List.filter_cons, carBlockOf, carWarnOf,
            hb, hp, hm]
      · simp [List.filterMap_cons, List.filter_cons, carBlockOf, carWarnOf,
          hb, hp]


/-- C8 (amended): when the root block is fetched, written, and verified
successfully, the export succeeds and the archive holds exactly the root
block first (designated as root) followed, in the given order, by one
block per child whose fetch and write succeeded — no block is ever
fetched transitively; a child fetch or write failure only skips that
block with a logged warning; a child address mismatch only logs a
warning (the written bytes remain in the archive under the reported
address).  When additionally every child fetch and write succeeds and
verifies, the archive holds exactly the root and the passed child
blocks in order, with no warnings. -/
theorem shallow_car_export (env : CarEnv) (root_cid : Nat)
    (child_cids : List Nat) (root_bytes : Bytes)
    (hget : env.block_get root_cid = some root_bytes)
    (hput0 : env.put_ok 0 = true)
    (hroot : env.put_cid root_bytes = root_cid) :
    generate_shallow_car_file env root_cid child_cids
      = ⟨true, (root_cid, root_bytes) :: child_cids.enum.filterMap (carBlockOf env),
         some root_cid,
         (child_cids.enum.filter (carWarnOf env)).map Prod.snd⟩
    ∧ ((∀ ic ∈ child_cids.enum,
          ∃ b, env.block_get ic.2 = some b ∧ env.put_ok (ic.1 + 1) = true
            ∧ env.put_cid b = ic.2) →
        generate_shallow_car_file env root_cid child_cids
          = ⟨true,
             (root_cid, root_bytes)
               :: child_cids.map (fun c => (c, (env.block_get c).getD [])),
             some root_cid, []⟩) := by
  have hmain : generate_shallow_car_file env root_cid child_cids
      = ⟨true,
         (root_cid, root_bytes) :: child_cids.enum.filterMap (carBlockOf env),
         some root_cid,
         (child_cids.enum.filter (carWarnOf env)).map Prod.snd⟩ := by
    rw [generate_shallow_car_file, hget]
    simp only [hput0, Bool.not_true, Bool.false_eq_true, if_false, hroot,
      ne_eq, not_true_eq_false]
    rw [car_children_foldl]
    simp
  refine ⟨hmain, fun hall => ?_⟩
  rw [hmain]
  have hfm : ∀ l : List (Nat × Nat),
      (∀ ic ∈ l, ∃ b, env.block_get ic.2 = some b ∧ env.put_ok (ic.1 + 1) = true
          ∧ env.put_cid b = ic.2) →
      l.filterMap (carBlockOf env)
        = l.map (fun ic => (ic.2, (env.block_get ic.2).getD [])) := by
    intro l hl
    induction l with
    | nil => rfl
    | cons ic l ih =>
      rcases hl ic (List.mem_cons_self ic l) with ⟨b, hb, hp, hc⟩
      rw [List.filterMap_cons, List.map_cons]
      rw [show carBlockOf env ic = some (ic.2, b) by
        rw [carBlockOf, hb]
        simp [hp, hc]]
      rw [ih (fun x hx => hl x (List.mem_cons_of_mem ic hx)), hb]
      rfl
  have hblocks : child_cids.enum.filterMap (carBlockOf env)
      = child_cids.map (fun c => (c, (env.block_get c).getD [])) := by
    rw [hfm child_cids.enum hall]
    calc child_cids.enum.map (fun ic => (ic.2, (env.block_get ic.2).getD []))
        = (child_cids.enum.map Prod.snd).map
            (fun c => (c, (env.block_get c).getD [])) := by
          rw [List.map_map]
          rfl
      _ = child_cids.map (fun c => (c, (env.block_get c).getD [])) := by
          rw [List.enum_map_snd]
  have hwarn : child_cids.enum.filter (carWarnOf env) = [] := by
    rw [List.filter_eq_nil_iff]
    intro ic hic
    rcases hall ic hic with ⟨b, hb, hp, hc⟩
    rw [carWarnOf, hb]
    simp [hp, hc]
  rw [hblocks, hwarn]
  rfl


/-- Witness for C8 at a concrete environment: child 1's fetch fails and
is skipped with a warning; child 2 is appended; the export still
succeeds with exactly the root and the surviving child block. -/
theorem shallow_car_export_witness :
    generate_shallow_car_file
      (⟨fun c => if c = 0 then some [0] else if c = 2 then some [2] else none,
        fun _ => true, fun b => b.headD 0⟩ : CarEnv) 0 [1, 2]
      = ⟨true, [(0, [0]), (2, [2])], some 0, [1]⟩ := by
  have h := (shallow_car_export
    (⟨fun c => if c = 0 then some [0] else if c = 2 then some [2] else none,
      fun _ => true, fun b => b.headD 0⟩ : CarEnv) 0 [1, 2] [0] rfl rfl rfl).1
  rw [h]
  rfl


/-- Counterexample for C8 as stated: with the root verifying and a
single child whose written address differs from the expected one, the
claim says the child block is skipped; in fact the export succeeds, a
warning is logged, and the mismatched block's bytes are present in the
archive (under the reported address 9, not the expected 1). -/
theorem shallow_car_mismatch_present :
    (generate_shallow_car_file
      (⟨fun c => if c = 0 then some [0] else if c = 1 then some [9] else none,
        fun _ => true, fun b => b.headD 0⟩ : CarEnv) 0 [1]).success = true
    ∧ (9, [9]) ∈ (generate_shallow_car_file
      (⟨fun c => if c = 0 then some [0] else if c = 1 then some [9] else none,
        fun _ => true, fun b => b.headD 0⟩ : CarEnv) 0 [1]).blocks
    ∧ (generate_shallow_car_file
      (⟨fun c => if c = 0 then some [0] else if c = 1 then some [9] else none,
        fun _ => true, fun b => b.headD 0⟩ : CarEnv) 0 [1]).blocks
        ≠ [(0, [0])]
    ∧ (generate_shallow_car_file
      (⟨fun c => if c = 0 then some [0] else if c = 1 then some [9] else none,
        fun _ => true, fun b => b.headD 0⟩ : CarEnv) 0 [1]).warnings = [1] := by
  refine ⟨rfl, ?_, ?_, rfl⟩
  · show (9, [9]) ∈ [(0, [0]), (9, [9])]
    simp
  · show [(0, [0]), (9, [9])] ≠ [(0, [0])]
    simp


/-! ## C1 and C6: merge accumulation invariants -/

section MergeLemmas

variable {α : Type} [DecidableEq α]

theorem mem_sinsert (s : List String) (k k' : String) :
    k' ∈ sinsert s k ↔ k' ∈ s ∨ k' = k := by
  rw [sinsert]
  by_cases h : k ∈ s
  · rw [if_pos h]
    constructor
    · exact Or.inl
    · rintro (h' | rfl)
      · exact h'
      · exact h
  · rw [if_neg h]
    simp


theorem firstVal_cons (q : String × α) (L : List (String × α)) (p : String) :
    firstVal (q :: L) p = if q.1 = p then some q.2 else firstVal L p := by
  by_cases h : q.1 = p <;> simp [firstVal, List.find?_cons, h]


theorem firstVal_isSome_iff (L : List (String × α)) (p : String) :
    (firstVal L p).isSome ↔ ∃ c, (p, c) ∈ L := by
  induction L with
  | nil => simp [firstVal]
  | cons q L ih =>
    rw [firstVal_cons]
    by_cases h : q.1 = p
    · simp only [if_pos h, Option.isSome_some, true_iff]
      exact ⟨q.2, by rw [← h]; exact List.mem_cons_self q L⟩
    · rw [if_neg h, ih]
      constructor
      · rintro ⟨c, hc⟩
        exact ⟨c, List.mem_cons_of_mem q hc⟩
      · rintro ⟨c, hc⟩
        rcases List.mem_cons.mp hc with hc | hc
        · exact absurd (congrArg Prod.fst hc.symm) h
        · exact ⟨c, hc⟩


theorem firstVal_mem (L : List (String × α)) (p : String) (c : α)
    (h : firstVal L p = some c) : (p, c) ∈ L := by
  induction L with
  | nil => simp [firstVal] at h
  | cons q L ih =>
    rw [firstVal_cons] at h
    by_cases hq : q.1 = p
    · rw [if_pos hq] at h
      have : q = (p, c) := by
        cases q
        simp only at hq h
        rw [hq, Option.some_inj.mp h]
      rw [← this]
      exact List.mem_cons_self q L
    · rw [if_neg hq] at h
      exact List.mem_cons_of_mem q (ih h)


theorem mergeStep_eq_of_none (s : Dict α × List String) (q : String × α)
    (hq : dlookup s.1 q.1 = none) :
    mergeStep s q = (dinsert s.1 q.1 q.2, s.2) := by
  rw [mergeStep, hq]


theorem mergeStep_eq_of_some_eq (s : Dict α × List String) (q : String × α)
    (hq : dlookup s.1 q.1 = some q.2) :
    mergeStep s q = s := by
  rw [mergeStep, hq]
  simp


theorem mergeStep_eq_of_some_ne (s : Dict α × List String) (q : String × α)
    (v : α) (hq : dlookup s.1 q.1 = some v) (hv : v ≠ q.2) :
    mergeStep s q = (s.1, sinsert s.2 q.1) := by
  rw [mergeStep, hq]
  simp [hv]


theorem mergeStep_fst_of_some (s : Dict α × List String) (q : String × α)
    (v : α) (hq : dlookup s.1 q.1 = some v) :
    (mergeStep s q).1 = s.1 := by
  by_cases hv : v = q.2
  · rw [hv] at hq
    rw [mergeStep_eq_of_some_eq s q hq]
  · rw [mergeStep_eq_of_some_ne s q v hq hv]


/-- The accumulated mapping is never rewritten: the final lookup of `p`
is the existing value or the first value `p` takes in the stream. -/
theorem mergeStep_foldl_lookup (L : List (String × α))
    (s : Dict α × List String) (p : String) :
    dlookup (L.foldl mergeStep s).1 p = mergeCmp s.1 L p := by
  induction L generalizing s with
  | nil =>
    rw [List.foldl_nil, mergeCmp]
    cases dlookup s.1 p <;> simp [firstVal]
  | cons q L ih =>
    rw [List.foldl_cons, ih, mergeCmp, mergeCmp]
    rcases hq : dlookup s.1 q.1 with _ | v
    · by_cases hp : q.1 = p
      · subst hp
        rw [mergeStep_eq_of_none s q hq, hq]
        have h1 : dlookup (dinsert s.1 q.1 q.2, s.2).1 q.1 = some q.2 :=
          dlookup_dinsert_self s.1 q.1 q.2
        rw [h1, firstVal_cons]
        simp
      · rw [mergeStep_eq_of_none s q hq]
        have h1 : dlookup (dinsert s.1 q.1 q.2, s.2).1 p = dlookup s.1 p :=
          dlookup_dinsert_ne s.1 q.1 p q.2 (fun hc => hp hc.symm)
        rw [h1, firstVal_cons, if_neg hp]
    · rw [mergeStep_fst_of_some s q v hq]
      by_cases hp : q.1 = p
      · subst hp
        rw [hq]
      · rw [firstVal_cons, if_neg hp]


/-- Conflict marks are never removed. -/
theorem mergeStep_foldl_confl_mono (L : List (String × α))
    (s : Dict α × List String) (p : String) (h : p ∈ s.2) :
    p ∈ (L.foldl mergeStep s).2 := by
  induction L generalizing s with
  | nil => exact h
  | cons q L ih =>
    rw [List.foldl_cons]
    apply ih
    rcases hq : dlookup s.1 q.1 with _ | v
    · rw [mergeStep_eq_of_none s q hq]
      exact h
    · by_cases hv : v = q.2
      · rw [hv] at hq
        rw [mergeStep_eq_of_some_eq s q hq]
        exact h
      · rw [mergeStep_eq_of_some_ne s q v hq hv]
        exact (mem_sinsert s.2 q.1 p).mpr (Or.inl h)


/-- A path is marked conflicted exactly when some occurrence in the
stream disagrees with the value it is compared against. -/
theorem mergeStep_foldl_confl (L : List (String × α))
    (s : Dict α × List String) (p : String) :
    p ∈ (L.foldl mergeStep s).2
      ↔ p ∈ s.2 ∨ ∃ c, (p, c) ∈ L ∧ some c ≠ mergeCmp s.1 L p := by
  induction L generalizing s with
  | nil => simp
  | cons q L ih =>
    rw [List.foldl_cons, ih]
    by_cases hp : q.1 = p
    · subst hp
      rcases hq : dlookup s.1 q.1 with _ | v
      · -- q.1 was fresh: inserted, later occurrences compare against q.2
        rw [mergeStep_eq_of_none s q hq]
        have hcmp : mergeCmp (dinsert s.1 q.1 q.2, s.2).1 L q.1 = some q.2 := by
          rw [mergeCmp]
          have h1 : dlookup (dinsert s.1 q.1 q.2, s.2).1 q.1 = some q.2 :=
            dlookup_dinsert_self s.1 q.1 q.2
          rw [h1]
        have hcmp' : mergeCmp s.1 (q :: L) q.1 = some q.2 := by
          rw [mergeCmp, hq, firstVal_cons]
          simp
        rw [hcmp, hcmp']
        constructor
        · rintro (h | ⟨c, hc, hne⟩)
          · exact Or.inl h
          · exact Or.inr ⟨c, List.mem_cons_of_mem q hc, hne⟩
        · rintro (h | ⟨c, hc, hne⟩)
          · exact Or.inl h
          · rcases List.mem_cons.mp hc with hc | hc
            · exfalso
              apply hne
              have hcq : c = q.2 := congrArg Prod.snd hc
              rw [hcq]
            · exact Or.inr ⟨c, hc, hne⟩
      · have hcmp' : mergeCmp s.1 (q :: L) q.1 = some v := by
          rw [mergeCmp, hq]
        by_cases hv : v = q.2
        · -- harmless duplicate
          subst hv
          rw [mergeStep_eq_of_some_eq s q hq, hcmp']
          have hcmpL : mergeCmp s.1 L q.1 = some q.2 := by
            rw [mergeCmp, hq]
          rw [hcmpL]
          constructor
          · rintro (h | ⟨c, hc, hne⟩)
            · exact Or.inl h
            · exact Or.inr ⟨c, List.mem_cons_of_mem q hc, hne⟩
          · rintro (h | ⟨c, hc, hne⟩)
            · exact Or.inl h
            · rcases List.mem_cons.mp hc with hc | hc
              · exfalso
                apply hne
                have hcq : c = q.2 := congrArg Prod.snd hc
                rw [hcq]
              · exact Or.inr ⟨c, hc, hne⟩
        · -- genuine conflict: marked immediately
          rw [mergeStep_eq_of_some_ne s q v hq hv, hcmp']
          have hcmpL : mergeCmp (s.1, sinsert s.2 q.1).1 L q.1 = some v := by
            rw [mergeCmp]
            show (match dlookup s.1 q.1 with
              | some v => some v
              | none => firstVal L q.1) = some v
            rw [hq]
          rw [hcmpL]
          constructor
          · intro _
            exact Or.inr ⟨q.2, List.mem_cons_self q L,
              fun hc => hv (Option.some_inj.mp hc).symm⟩
          · intro _
            exact Or.inl ((mem_sinsert s.2 q.1 q.1).mpr (Or.inr rfl))
    · -- the head concerns a different path
      have h2 : p ∈ (mergeStep s q).2 ↔ p ∈ s.2 := by
        rcases hq : dlookup s.1 q.1 with _ | v
        · rw [mergeStep_eq_of_none s q hq]
        · by_cases hv : v = q.2
          · subst hv
            rw [mergeStep_eq_of_some_eq s q hq]
          · rw [mergeStep_eq_of_some_ne s q v hq hv]
            show p ∈ sinsert s.2 q.1 ↔ p ∈ s.2
            rw [mem_sinsert]
            constructor
            · rintro (h | rfl)
              · exact h
              · exact absurd rfl hp
            · exact Or.inl
      have h3 : mergeCmp (mergeStep s q).1 L p = mergeCmp s.1 (q :: L) p := by
        have hl : dlookup (mergeStep s q).1 p = dlookup s.1 p := by
          rcases hq : dlookup s.1 q.1 with _ | v
          · rw [mergeStep_eq_of_none s q hq]
            exact dlookup_dinsert_ne s.1 q.1 p q.2 (fun hc => hp hc.symm)
          · rw [mergeStep_fst_of_some s q v hq]
        rw [mergeCmp, mergeCmp, hl, firstVal_cons, if_neg hp]
      rw [h2, h3]
      constructor
      · rintro (h | ⟨c, hc, hne⟩)
        · exact Or.inl h
        · exact Or.inr ⟨c, List.mem_cons_of_mem q hc, hne⟩
      · rintro (h | ⟨c, hc, hne⟩)
        · exact Or.inl h
        · rcases List.mem_cons.mp hc with hc | hc
          · exact absurd (congrArg Prod.fst hc.symm) hp
          · exact Or.inr ⟨c, hc, hne⟩


/-- The accumulated mapping's keys stay duplicate-free. -/
theorem mergeStep_foldl_keys_nodup (L : List (String × α))
    (s : Dict α × List String) (h : (dkeys s.1).Nodup) :
    (dkeys (L.foldl mergeStep s).1).Nodup := by
  induction L generalizing s with
  | nil => exact h
  | cons q L ih =>
    rw [List.foldl_cons]
    apply ih
    rcases hq : dlookup s.1 q.1 with _ | v
    · rw [mergeStep_eq_of_none s q hq]
      exact dkeys_nodup_dinsert s.1 q.1 q.2 h
    · rw [mergeStep_fst_of_some s q v hq]
      exact h


/-- The outer root loop is the flat accumulation over the concatenated
walk entries (a root with an empty walk only logs an error). -/
theorem merge_accumulate_eq_join (walks : List (Dict α))
    (s : Dict α × List String) :
    walks.foldl
      (fun s files => if files.isEmpty then s else files.foldl mergeStep s)
      s = walks.flatten.foldl mergeStep s := by
  induction walks generalizing s with
  | nil => simp
  | cons w ws ih =>
    rw [List.foldl_cons, List.flatten_cons, List.foldl_append]
    by_cases hw : w.isEmpty
    · rw [if_pos hw]
      rw [List.isEmpty_iff] at hw
      rw [hw, List.foldl_nil, ih]
    · rw [if_neg hw, ih]


theorem merge_accumulate_spec (walks : List (Dict α)) :
    merge_accumulate walks = walks.flatten.foldl mergeStep ([], []) := by
  rw [merge_accumulate, merge_accumulate_eq_join]


/-- Every entry of the accumulated mapping comes from the input stream
(or the initial state). -/
theorem mergeStep_foldl_mem (L : List (String × α))
    (s : Dict α × List String) (q : String × α)
    (h : q ∈ (L.foldl mergeStep s).1) : q ∈ s.1 ∨ q ∈ L := by
  induction L generalizing s with
  | nil => exact Or.inl h
  | cons x L ih =>
    rw [List.foldl_cons] at h
    rcases ih _ h with h | h
    · rcases hq : dlookup s.1 x.1 with _ | v
      · rw [mergeStep_eq_of_none s x hq] at h
        have hm : dmem s.1 x.1 = false := by
          rw [dmem_eq_false_iff, ← dlookup_eq_none_iff]
          exact hq
        rw [show (dinsert s.1 x.1 x.2, s.2).1 = dinsert s.1 x.1 x.2 from rfl,
          dinsert, hm] at h
        simp only [Bool.false_eq_true, if_false] at h
        rcases List.mem_append.mp h with h | h
        · exact Or.inl h
        · rcases List.mem_singleton.mp h with rfl
          exact Or.inr (List.mem_cons_self x L)
      · rw [mergeStep_fst_of_some s x v hq] at h
        exact Or.inl h
    · exact Or.inr (List.mem_cons_of_mem x h)

end MergeLemmas


/-! ### Dict lookup/membership bridges -/

theorem dlookup_mem (d : Dict α) (p : String) (c : α)
    (h : dlookup d p = some c) : (p, c) ∈ d := by
  induction d with
  | nil => simp at h
  | cons q d ih =>
    rw [dlookup_cons] at h
    by_cases hq : q.1 = p
    · rw [if_pos hq] at h
      have hqe : q = (p, c) := by
        cases q
        simp only at hq h ⊢
        subst hq
        rw [Option.some_inj.mp h]
      rw [← hqe]
      exact List.mem_cons_self q d
    · rw [if_neg hq] at h
      exact List.mem_cons_of_mem q (ih h)


theorem mem_dlookup_of_nodup (d : Dict α) (h : (dkeys d).Nodup) (p : String)
    (c : α) (hm : (p, c) ∈ d) : dlookup d p = some c := by
  induction d with
  | nil => simp at hm
  | cons q d ih =>
    rcases List.mem_cons.mp hm with hm | hm
    · rw [← hm, dlookup_cons, if_pos rfl]
    · have hq : ¬ q.1 = p := by
        intro hc
        have hpd : p ∈ dkeys d := List.mem_map.mpr ⟨(p, c), hm, rfl⟩
        rw [dkeys, List.map_cons, List.nodup_cons] at h
        exact h.1 (hc ▸ hpd)
      rw [dlookup_cons, if_neg hq]
      refine ih ?_ hm
      rw [dkeys, List.map_cons, List.nodup_cons] at h
      exact h.2


theorem dlookup_filter_key (d : Dict α) (g : String → Bool) (p : String) :
    dlookup (d.filter (fun q => g q.1)) p
      = if g p then dlookup d p else none := by
  induction d with
  | nil => cases g p <;> simp
  | cons q d ih =>
    rw [List.filter_cons]
    by_cases hq : q.1 = p
    · subst hq
      cases hg : g q.1
      · simp only [Bool.false_eq_true, if_false]
        rw [ih, hg]
        simp
      · simp only [if_true]
        rw [dlookup_cons, if_pos rfl, dlookup_cons, if_pos rfl]
    · cases hg : g q.1
      · simp only [Bool.false_eq_true, if_false]
        rw [ih, dlookup_cons, if_neg hq]
      · simp only [if_true]
        rw [dlookup_cons, if_neg hq, ih, dlookup_cons, if_neg hq]


theorem dkeys_filter_nodup (d : Dict α) (g : (String × α) → Bool)
    (h : (dkeys d).Nodup) : (dkeys (d.filter g)).Nodup := by
  apply List.Nodup.sublist _ h
  exact (List.filter_sublist d).map Prod.fst


theorem filter_key_nil (d : Dict α) (p : String) (h : p ∉ dkeys d) :
    d.filter (fun q => q.1 = p) = [] := by
  induction d with
  | nil => rfl
  | cons q d ih =>
    rw [dkeys, List.map_cons, List.mem_cons, not_or] at h
    rw [List.filter_cons, if_neg (by simpa using fun hc => h.1 hc.symm)]
    exact ih h.2


theorem filter_key_eq_of_nodup (d : Dict α) (h : (dkeys d).Nodup) (p : String)
    (v : α) (hl : dlookup d p = some v) :
    d.filter (fun q => q.1 = p) = [(p, v)] := by
  induction d with
  | nil => simp at hl
  | cons q d ih =>
    rw [dkeys, List.map_cons, List.nodup_cons] at h
    rw [dlookup_cons] at hl
    by_cases hq : q.1 = p
    · rw [if_pos hq] at hl
      have hqv : q = (p, v) := by
        cases q
        simp only at hq hl ⊢
        subst hq
        rw [Option.some_inj.mp hl]
      rw [List.filter_cons, if_pos (by simpa using hq), hqv,
        filter_key_nil d p (hq ▸ h.1)]
    · rw [if_neg hq] at hl
      rw [List.filter_cons, if_neg (by simpa using hq)]
      exact ih h.2 hl


/-! ### The walkers produce duplicate-free path mappings -/

theorem dkeys_nodup_dupdate (d e : Dict α) (h : (dkeys d).Nodup) :
    (dkeys (dupdate d e)).Nodup := by
  rw [dupdate]
  induction e generalizing d with
  | nil => exact h
  | cons p e ih => exact ih _ (dkeys_nodup_dinsert d p.1 p.2 h)


theorem dkeys_nodup_foldl (l : List β) (step : Dict α → β → Dict α)
    (hstep : ∀ d b, (dkeys d).Nodup → (dkeys (step d b)).Nodup)
    (d : Dict α) (h : (dkeys d).Nodup) :
    (dkeys (l.foldl step d)).Nodup := by
  induction l generalizing d with
  | nil => exact h
  | cons b l ih => exact ih _ (hstep d b h)


theorem walk_directory_keys_nodup (store : Store α) (known_files : List String)
    (fuel : Nat) (dir_cid : α) (pre : String) :
    (dkeys (walk_directory store known_files fuel dir_cid pre)).Nodup := by
  cases fuel with
  | zero => simp [walk_directory, dkeys]
  | succ fuel =>
    rw [walk_directory]
    rcases store dir_cid with _ | entries
    · simp [dkeys]
    · apply dkeys_nodup_foldl entries _ _ _ (by simp [dkeys])
      intro d b hd
      dsimp only
      by_cases hk : pre ++ b.2 ∈ known_files
      · rw [if_pos hk]
        exact dkeys_nodup_dinsert d _ b.1 hd
      · rw [if_neg hk]
        rcases store b.1 with _ | es
        · exact dkeys_nodup_dinsert d _ b.1 hd
        · rcases es with _ | ⟨e, es⟩
          · exact dkeys_nodup_dinsert d _ b.1 hd
          · exact dkeys_nodup_dupdate d _ hd


theorem walk_directory_fc_keys_nodup (store : Store α)
    (looks_like_file : String → Bool) (force_check_directories : Bool)
    (fuel : Nat) (dir_cid : α) (pre : String) :
    (dkeys (walk_directory_fc store looks_like_file force_check_directories
      fuel dir_cid pre)).Nodup := by
  cases fuel with
  | zero => simp [walk_directory_fc, dkeys]
  | succ fuel =>
    rw [walk_directory_fc]
    rcases store dir_cid with _ | entries
    · simp [dkeys]
    · apply dkeys_nodup_foldl entries _ _ _ (by simp [dkeys])
      intro d b hd
      dsimp only
      by_cases hk : (!force_check_directories && looks_like_file b.2) = true
      · rw [if_pos hk]
        exact dkeys_nodup_dinsert d _ b.1 hd
      · rw [if_neg hk]
        rcases store b.1 with _ | es
        · exact dkeys_nodup_dinsert d _ b.1 hd
        · rcases es with _ | ⟨e, es⟩
          · exact dkeys_nodup_dinsert d _ b.1 hd
          · exact dkeys_nodup_dupdate d _ hd




/-! ## C1: conflict exclusion in the Merger -/

theorem merge_walks_keys_nodup [DecidableEq α] (store : Store α)
    (llf : String → Bool) (fuel : Nat) (cids : List α) (fcd : Bool) :
    ∀ w ∈ merge_walks store llf fuel cids fcd, (dkeys w).Nodup := by
  intro w hw
  rcases List.mem_map.mp hw with ⟨cid, _, rfl⟩
  exact walk_directory_fc_keys_nodup store llf fcd fuel cid ""


/-- C1: if some path `p` resolves to `X` under one root's walk and to
`Y ≠ X` under another root's walk, then `p` is marked conflicted (a
ConflictRecord is logged) and is absent from the merged mapping — even
if further roots map `p` to `X` again; if instead every root that
contains `p` maps it to the same address `X` (and at least one does),
no conflict is logged for `p` and the merged mapping contains exactly
one entry `p → X`. -/
theorem merge_conflict_exclusion [DecidableEq α] (store : Store α)
    (llf : String → Bool) (fuel : Nat) (cids : List α) (fcd : Bool)
    (p : String) :
    ((∃ X Y, X ≠ Y
        ∧ (∃ w ∈ merge_walks store llf fuel cids fcd, dlookup w p = some X)
        ∧ (∃ w ∈ merge_walks store llf fuel cids fcd, dlookup w p = some Y)) →
      p ∈ (merge_accumulate (merge_walks store llf fuel cids fcd)).2
        ∧ p ∉ dkeys (merge_survivors (merge_walks store llf fuel cids fcd)))
    ∧ (∀ X,
        (∀ w ∈ merge_walks store llf fuel cids fcd, ∀ c,
            dlookup w p = some c → c = X) →
        (∃ w ∈ merge_walks store llf fuel cids fcd, dlookup w p = some X) →
      p ∉ (merge_accumulate (merge_walks store llf fuel cids fcd)).2
        ∧ (merge_survivors (merge_walks store llf fuel cids fcd)).filter
            (fun q => q.1 = p) = [(p, X)]) := by
  set ws := merge_walks store llf fuel cids fcd with hws
  have hacc := merge_accumulate_spec ws
  have hcmp0 : mergeCmp ([] : Dict α) ws.flatten p = firstVal ws.flatten p := by
    rw [mergeCmp]
    simp
  have hconfl_iff : p ∈ (merge_accumulate ws).2
      ↔ ∃ c, (p, c) ∈ ws.flatten ∧ some c ≠ firstVal ws.flatten p := by
    rw [hacc, mergeStep_foldl_confl, hcmp0]
    simp
  have hlook : dlookup (merge_accumulate ws).1 p = firstVal ws.flatten p := by
    rw [hacc, mergeStep_foldl_lookup, hcmp0]
  have hsurv_look :
      dlookup (merge_survivors ws) p
        = if (p ∉ (merge_accumulate ws).2 : Bool)
          then dlookup (merge_accumulate ws).1 p else none := by
    rw [merge_survivors]
    exact dlookup_filter_key (merge_accumulate ws).1
      (fun k => decide (k ∉ (merge_accumulate ws).2)) p
  constructor
  · rintro ⟨X, Y, hXY, ⟨w1, hw1, hX⟩, ⟨w2, hw2, hY⟩⟩
    have hXJ : (p, X) ∈ ws.flatten :=
      List.mem_flatten.mpr ⟨w1, hw1, dlookup_mem w1 p X hX⟩
    have hYJ : (p, Y) ∈ ws.flatten :=
      List.mem_flatten.mpr ⟨w2, hw2, dlookup_mem w2 p Y hY⟩
    rcases Option.isSome_iff_exists.mp
      ((firstVal_isSome_iff ws.flatten p).mpr ⟨X, hXJ⟩) with ⟨Z, hZ⟩
    have hconfl : p ∈ (merge_accumulate ws).2 := by
      rw [hconfl_iff, hZ]
      by_cases hZX : Z = X
      · refine ⟨Y, hYJ, ?_⟩
        intro hc
        exact hXY (hZX ▸ (Option.some_inj.mp hc).symm)
      · refine ⟨X, hXJ, ?_⟩
        intro hc
        exact hZX (Option.some_inj.mp hc).symm
    refine ⟨hconfl, ?_⟩
    rw [← dlookup_isSome_iff, hsurv_look]
    simp [hconfl]
  · intro X hall hex
    rcases hex with ⟨w0, hw0, hX⟩
    have hXJ : (p, X) ∈ ws.flatten :=
      List.mem_flatten.mpr ⟨w0, hw0, dlookup_mem w0 p X hX⟩
    have hallJ : ∀ c, (p, c) ∈ ws.flatten → c = X := by
      intro c hc
      rcases List.mem_flatten.mp hc with ⟨w, hw, hcw⟩
      exact hall w hw c
        (mem_dlookup_of_nodup w
          (merge_walks_keys_nodup store llf fuel cids fcd w hw) p c hcw)
    have hfv : firstVal ws.flatten p = some X := by
      rcases Option.isSome_iff_exists.mp
        ((firstVal_isSome_iff ws.flatten p).mpr ⟨X, hXJ⟩) with ⟨Z, hZ⟩
      rw [hZ, hallJ Z (firstVal_mem ws.flatten p Z hZ)]
    have hnoconfl : p ∉ (merge_accumulate ws).2 := by
      rw [hconfl_iff, hfv]
      rintro ⟨c, hc, hne⟩
      exact hne (by rw [hallJ c hc])
    refine ⟨hnoconfl, ?_⟩
    have hlookX : dlookup (merge_accumulate ws).1 p = some X := by
      rw [hlook, hfv]
    have hsl : dlookup (merge_survivors ws) p = some X := by
      rw [hsurv_look, if_pos (by simpa using hnoconfl), hlookX]
    have hnd : (dkeys (merge_survivors ws)).Nodup := by
      rw [merge_survivors]
      apply dkeys_filter_nodup
      rw [hacc]
      exact mergeStep_foldl_keys_nodup ws.flatten ([], []) (by simp [dkeys])
    exact filter_key_eq_of_nodup (merge_survivors ws) hnd p X hsl


/-- Witness for C1 at a concrete two-root store: path `"a"` maps to
addresses 1 and 2 under the two roots and is excluded with a logged
conflict; path `"b"` maps to 3 under both and survives as the single
entry `("b", 3)`. -/
theorem merge_conflict_exclusion_witness :
    ("a" ∈ (merge_accumulate (merge_walks
        (fun c => if c = 10 then .ok [(1, "a"), (3, "b")]
                  else if c = 20 then .ok [(2, "a"), (3, "b")]
                  else .ok ([] : List (Nat × String)))
        (fun _ => false) 2 [10, 20] false)).2
      ∧ "a" ∉ dkeys (merge_survivors (merge_walks
        (fun c => if c = 10 then .ok [(1, "a"), (3, "b")]
                  else if c = 20 then .ok [(2, "a"), (3, "b")]
                  else .ok ([] : List (Nat × String)))
        (fun _ => false) 2 [10, 20] false)))
    ∧ (merge_survivors (merge_walks
        (fun c => if c = 10 then .ok [(1, "a"), (3, "b")]
                  else if c = 20 then .ok [(2, "a"), (3, "b")]
                  else .ok ([] : List (Nat × String)))
        (fun _ => false) 2 [10, 20] false)).filter
          (fun q => q.1 = "b") = [("b", 3)] := by
  refine ⟨(merge_conflict_exclusion _ (fun _ => false) 2 [10, 20] false "a").1
    ⟨1, 2, by decide, by decide, by decide⟩, ?_⟩
  refine ((merge_conflict_exclusion _ (fun _ => false) 2 [10, 20] false "b").2
    3 ?_ (by decide)).2
  intro w hw c hc
  have hwalks : merge_walks
      (fun c => if c = 10 then LsResult.ok [(1, "a"), (3, "b")]
                else if c = 20 then .ok [(2, "a"), (3, "b")]
                else .ok ([] : List (Nat × String)))
      (fun _ => false) 2 [10, 20] false
      = [[("a", 1), ("b", 3)], [("a", 2), ("b", 3)]] := by decide
  rw [hwalks] at hw
  rcases List.mem_cons.mp hw with rfl | hw
  · exact (Option.some_inj.mp hc).symm
  · rcases List.mem_cons.mp hw with rfl | hw
    · exact (Option.some_inj.mp hc).symm
    · simp at hw


/-! ## C6: when the merge fails -/

/-- C6 (amended): the merge returns no directory exactly when the
mapping surviving conflict exclusion is empty; when a survivor exists
the merge returns the directory built over the surviving mapping; and a
survivor exists exactly when some root's walk yields a path that is not
marked conflicted.  (A nonempty walk alone is not sufficient: when every
yielded path is conflicted the merge still fails — see the
counterexample.) -/
theorem merge_failure_condition [DecidableEq α] (store : Store α)
    (llf : String → Bool) (fuel : Nat) (cids : List α) (fcd : Bool) :
    ((merge_root_cids store llf fuel cids fcd).1 = none
      ↔ merge_survivors (merge_walks store llf fuel cids fcd) = [])
    ∧ (merge_survivors (merge_walks store llf fuel cids fcd) ≠ [] →
        (merge_root_cids store llf fuel cids fcd).1
          = some (create_directory_via_mfs
              (merge_survivors (merge_walks store llf fuel cids fcd))))
    ∧ (merge_survivors (merge_walks store llf fuel cids fcd) ≠ []
      ↔ ∃ w ∈ merge_walks store llf fuel cids fcd, ∃ p c, (p, c) ∈ w
          ∧ p ∉ (merge_accumulate (merge_walks store llf fuel cids fcd)).2) := by
  set ws := merge_walks store llf fuel cids fcd with hws
  have hres : (merge_root_cids store llf fuel cids fcd).1
      = if (merge_survivors ws).isEmpty then none
        else some (create_directory_via_mfs (merge_survivors ws)) := rfl
  refine ⟨?_, ?_, ?_⟩
  · rw [hres]
    by_cases h : (merge_survivors ws).isEmpty
    · simp only [if_pos h]
      rw [List.isEmpty_iff] at h
      simp [h]
    · simp only [if_neg h]
      rw [List.isEmpty_iff] at h
      exact ⟨fun hc => Option.noConfusion hc, fun hc => absurd hc h⟩
  · intro hne
    have h : (merge_survivors ws).isEmpty = false := by
      cases hE : (merge_survivors ws).isEmpty
      · rfl
      · rw [List.isEmpty_iff] at hE
        exact absurd hE hne
    rw [hres, h]
    rfl
  · constructor
    · intro hne
      rcases List.exists_mem_of_ne_nil _ hne with ⟨q, hq⟩
      rw [merge_survivors] at hq
      rcases List.mem_filter.mp hq with ⟨hq1, hq2⟩
      have hqJ : q ∈ ws.flatten := by
        rw [merge_accumulate_spec] at hq1
        rcases mergeStep_foldl_mem ws.flatten ([], []) q hq1 with h | h
        · simp at h
        · exact h
      rcases List.mem_flatten.mp hqJ with ⟨w, hw, hqw⟩
      exact ⟨w, hw, q.1, q.2, hqw, by simpa using hq2⟩
    · rintro ⟨w, hw, p, c, hpc, hnc⟩
      have hpcJ : (p, c) ∈ ws.flatten := List.mem_flatten.mpr ⟨w, hw, hpc⟩
      have hlook : dlookup (merge_accumulate ws).1 p = firstVal ws.flatten p := by
        rw [merge_accumulate_spec, mergeStep_foldl_lookup, mergeCmp]
        simp
      rcases Option.isSome_iff_exists.mp
        ((firstVal_isSome_iff ws.flatten p).mpr ⟨c, hpcJ⟩) with ⟨Z, hZ⟩
      have hmem : (p, Z) ∈ (merge_accumulate ws).1 :=
        dlookup_mem _ p Z (by rw [hlook, hZ])
      have hsurv : (p, Z) ∈ merge_survivors ws := by
        rw [merge_survivors]
        exact List.mem_filter.mpr ⟨hmem, by simpa using hnc⟩
      exact List.ne_nil_of_mem hsurv


/-- Counterexample for C6 as stated: two roots whose walks each yield
the single path `"a"`, with different addresses.  Both walks are
nonempty, yet after conflict exclusion nothing survives and the merge
returns no directory — refuting "fails only when no root yields any
files". -/
theorem merge_nonempty_walks_still_fails :
    (list_files_with_cids_fc
        (fun c => if c = 10 then .ok [(1, "a")]
                  else if c = 20 then .ok [(2, "a")]
                  else .ok ([] : List (Nat × String)))
        (fun _ => false) 2 10 false ≠ [])
    ∧ (list_files_with_cids_fc
        (fun c => if c = 10 then .ok [(1, "a")]
                  else if c = 20 then .ok [(2, "a")]
                  else .ok ([] : List (Nat × String)))
        (fun _ => false) 2 20 false ≠ [])
    ∧ (merge_root_cids
        (fun c => if c = 10 then .ok [(1, "a")]
                  else if c = 20 then .ok [(2, "a")]
                  else .ok ([] : List (Nat × String)))
        (fun _ => false) 2 [10, 20] false).1 = none := by
  refine ⟨by decide, by decide, ?_⟩
  rfl


/-- Witness for C6 at a concrete conflict-free store: one root yields
one file and the merge returns the directory built over it. -/
theorem merge_failure_condition_witness :
    (merge_root_cids
        (fun c => if c = 10 then .ok [(1, "a")]
                  else .ok ([] : List (Nat × String)))
        (fun _ => false) 2 [10] false).1
      = some (create_directory_via_mfs
          (merge_survivors (merge_walks
            (fun c => if c = 10 then .ok [(1, "a")]
                      else .ok ([] : List (Nat × String)))
            (fun _ => false) 2 [10] false))) := by
  exact (merge_failure_condition
    (fun c => if c = 10 then .ok [(1, "a")]
              else .ok ([] : List (Nat × String)))
    (fun _ => false) 2 [10] false).2.1 (by decide)


/-! ## C2: walker classification -/

theorem mem_dinsert_sub (d : Dict α) (k : String) (v : α) (q : String × α)
    (h : q ∈ dinsert d k v) : q ∈ d ∨ q = (k, v) := by
  rw [dinsert] at h
  by_cases hm : dmem d k
  · rw [if_pos hm] at h
    rcases List.mem_map.mp h with ⟨p, hp, hq⟩
    by_cases hpk : p.1 = k
    · rw [if_pos hpk] at hq
      exact Or.inr hq.symm
    · rw [if_neg hpk] at hq
      exact Or.inl (hq ▸ hp)
  · rw [if_neg hm] at h
    rcases List.mem_append.mp h with h | h
    · exact Or.inl h
    · exact Or.inr (List.mem_singleton.mp h)


theorem mem_dupdate_sub (d e : Dict α) (q : String × α)
    (h : q ∈ dupdate d e) : q ∈ d ∨ q ∈ e := by
  rw [dupdate] at h
  induction e generalizing d with
  | nil => exact Or.inl h
  | cons x e ih =>
    rw [List.foldl_cons] at h
    rcases ih _ h with h | h
    · rcases mem_dinsert_sub d x.1 x.2 q h with h | h
      · exact Or.inl h
      · refine Or.inr (List.mem_cons.mpr (Or.inl ?_))
        rw [h]
    · exact Or.inr (List.mem_cons_of_mem x h)


theorem dkeys_dinsert_sub (d : Dict α) (k : String) (v : α) :
    dkeys d ⊆ dkeys (dinsert d k v) := by
  intro a ha
  rw [mem_dkeys_dinsert]
  exact Or.inl ha


theorem dkeys_dupdate_left (d e : Dict α) : dkeys d ⊆ dkeys (dupdate d e) := by
  rw [dupdate]
  induction e generalizing d with
  | nil => exact fun a ha => ha
  | cons x e ih =>
    intro a ha
    rw [List.foldl_cons]
    exact ih (dinsert d x.1 x.2) (dkeys_dinsert_sub d x.1 x.2 ha)


theorem dkeys_dupdate_right (d e : Dict α) : dkeys e ⊆ dkeys (dupdate d e) := by
  induction e generalizing d with
  | nil => intro a ha; simp [dkeys] at ha
  | cons x e ih =>
    intro a ha
    rw [dkeys, List.map_cons] at ha
    rw [dupdate, List.foldl_cons, ← dupdate]
    rcases List.mem_cons.mp ha with rfl | ha
    · exact dkeys_dupdate_left (dinsert d x.1 x.2) e
        ((mem_dkeys_dinsert d x.1 x.1 x.2).mpr (Or.inr rfl))
    · exact ih (dinsert d x.1 x.2) ha


theorem dkeys_mono_foldl (l : List β) (step : Dict α → β → Dict α)
    (hmono : ∀ d b, dkeys d ⊆ dkeys (step d b)) (d : Dict α) :
    dkeys d ⊆ dkeys (l.foldl step d) := by
  induction l generalizing d with
  | nil => exact fun a ha => ha
  | cons b l ih =>
    intro a ha
    rw [List.foldl_cons]
    exact ih (step d b) (hmono d b ha)


theorem key_in_foldl_of_mem (l : List β) (step : Dict α → β → Dict α)
    (hmono : ∀ d b, dkeys d ⊆ dkeys (step d b)) (k : String) (b₀ : β)
    (hkey : ∀ d, k ∈ dkeys (step d b₀)) (hb : b₀ ∈ l) (d : Dict α) :
    k ∈ dkeys (l.foldl step d) := by
  induction l generalizing d with
  | nil => simp at hb
  | cons b l ih =>
    rw [List.foldl_cons]
    rcases List.mem_cons.mp hb with rfl | hb
    · exact dkeys_mono_foldl l step hmono (step d b₀) (hkey d)
    · exact ih hb (step d b)


theorem mem_foldl_step (l : List β) (step : Dict α → β → Dict α)
    (R : β → (String × α) → Prop)
    (hstep : ∀ d b q, q ∈ step d b → q ∈ d ∨ R b q) (d : Dict α) :
    ∀ q ∈ l.foldl step d, q ∈ d ∨ ∃ b ∈ l, R b q := by
  induction l generalizing d with
  | nil => exact fun q hq => Or.inl hq
  | cons b l ih =>
    intro q hq
    rw [List.foldl_cons] at hq
    rcases ih (step d b) q hq with h | ⟨b', hb', hr⟩
    · rcases hstep d b q h with h | h
      · exact Or.inl h
      · exact Or.inr ⟨b, List.mem_cons_self b l, h⟩
    · exact Or.inr ⟨b', List.mem_cons_of_mem b hb', hr⟩


theorem walk_directory_succ (store : Store α) (known_files : List String)
    (fuel : Nat) (dir_cid : α) (pre : String) (entries : List (α × String))
    (hdir : store dir_cid = .ok entries) :
    walk_directory store known_files (fuel + 1) dir_cid pre
      = entries.foldl (walkStep store known_files fuel pre) [] := by
  rw [walk_directory, hdir]
  rfl


theorem walkStep_mono (store : Store α) (known_files : List String)
    (fuel : Nat) (pre : String) (d : Dict α) (b : α × String) :
    dkeys d ⊆ dkeys (walkStep store known_files fuel pre d b) := by
  rw [walkStep]
  by_cases hk : pre ++ b.2 ∈ known_files
  · rw [if_pos hk]
    exact dkeys_dinsert_sub d _ b.1
  · rw [if_neg hk]
    rcases store b.1 with _ | es
    · exact dkeys_dinsert_sub d _ b.1
    · rcases es with _ | ⟨e, es⟩
      · exact dkeys_dinsert_sub d _ b.1
      · exact dkeys_dupdate_left d _


/-- C2: one level of the tree walk classifies each listed entry as the
claim states — an entry whose prefix-qualified path is in `knownPaths`
is recorded (as a file, with its own address, without the probe's
outcome mattering); an entry whose probe fails, times out, or returns an
empty listing is recorded as a file with its own address; an entry whose
probe returns a non-empty listing is treated as a directory and every
path found by the recursive walk under prefix `full_path ++ "/"` appears
in the result; and conversely every pair in the result is either an
entry recorded as a file with its own address by one of the first two
rules or a pair produced by such a recursive directory walk. -/
theorem walk_classification (store : Store α) (known_files : List String)
    (fuel : Nat) (dir_cid : α) (pre : String) (entries : List (α × String))
    (hdir : store dir_cid = .ok entries) :
    (∀ e ∈ entries, pre ++ e.2 ∈ known_files →
      pre ++ e.2 ∈ dkeys (walk_directory store known_files (fuel + 1) dir_cid pre))
    ∧ (∀ e ∈ entries, pre ++ e.2 ∉ known_files →
        (store e.1 = .err ∨ store e.1 = .ok []) →
      pre ++ e.2 ∈ dkeys (walk_directory store known_files (fuel + 1) dir_cid pre))
    ∧ (∀ e ∈ entries, pre ++ e.2 ∉ known_files →
        ∀ x xs, store e.1 = .ok (x :: xs) →
        ∀ p ∈ dkeys (walk_directory store known_files fuel e.1 (pre ++ e.2 ++ "/")),
      p ∈ dkeys (walk_directory store known_files (fuel + 1) dir_cid pre))
    ∧ (∀ q ∈ walk_directory store known_files (fuel + 1) dir_cid pre,
        ∃ e ∈ entries,
          (pre ++ e.2 ∈ known_files ∧ q = (pre ++ e.2, e.1))
          ∨ (pre ++ e.2 ∉ known_files ∧ (store e.1 = .err ∨ store e.1 = .ok [])
              ∧ q = (pre ++ e.2, e.1))
          ∨ (pre ++ e.2 ∉ known_files ∧ (∃ x xs, store e.1 = .ok (x :: xs))
              ∧ q ∈ walk_directory store known_files fuel e.1 (pre ++ e.2 ++ "/"))) := by
  rw [walk_directory_succ store known_files fuel dir_cid pre entries hdir]
  refine ⟨?_, ?_, ?_, ?_⟩
  · intro e he hk
    refine key_in_foldl_of_mem entries _ (walkStep_mono store known_files fuel pre)
      (pre ++ e.2) e ?_ he []
    intro d
    rw [walkStep, if_pos hk]
    exact (mem_dkeys_dinsert d _ _ e.1).mpr (Or.inr rfl)
  · intro e he hk hfe
    refine key_in_foldl_of_mem entries _ (walkStep_mono store known_files fuel pre)
      (pre ++ e.2) e ?_ he []
    intro d
    rw [walkStep, if_neg hk]
    rcases hfe with hfe | hfe <;>
      · rw [hfe]
        exact (mem_dkeys_dinsert d _ _ e.1).mpr (Or.inr rfl)
  · intro e he hk x xs hx p hp
    refine key_in_foldl_of_mem entries _ (walkStep_mono store known_files fuel pre)
      p e ?_ he []
    intro d
    rw [walkStep, if_neg hk, hx]
    exact dkeys_dupdate_right d _ hp
  · intro q hq
    have hstep : ∀ (d : Dict α) (b : α × String) (q : String × α),
        q ∈ walkStep store known_files fuel pre d b → q ∈ d ∨
          ((pre ++ b.2 ∈ known_files ∧ q = (pre ++ b.2, b.1))
          ∨ (pre ++ b.2 ∉ known_files ∧ (store b.1 = .err ∨ store b.1 = .ok [])
              ∧ q = (pre ++ b.2, b.1))
          ∨ (pre ++ b.2 ∉ known_files ∧ (∃ x xs, store b.1 = .ok (x :: xs))
              ∧ q ∈ walk_directory store known_files fuel b.1 (pre ++ b.2 ++ "/"))) := by
      intro d b q hq
      rw [walkStep] at hq
      by_cases hk : pre ++ b.2 ∈ known_files
      · rw [if_pos hk] at hq
        rcases mem_dinsert_sub d _ b.1 q hq with h | h
        · exact Or.inl h
        · exact Or.inr (Or.inl ⟨hk, h⟩)
      · rw [if_neg hk] at hq
        rcases hst : store b.1 with _ | es
        · rw [hst] at hq
          rcases mem_dinsert_sub d _ b.1 q hq with h | h
          · exact Or.inl h
          · exact Or.inr (Or.inr (Or.inl ⟨hk, Or.inl rfl, h⟩))
        · rcases es with _ | ⟨x, xs⟩
          · rw [hst] at hq
            rcases mem_dinsert_sub d _ b.1 q hq with h | h
            · exact Or.inl h
            · exact Or.inr (Or.inr (Or.inl ⟨hk, Or.inr rfl, h⟩))
          · rw [hst] at hq
            rcases mem_dupdate_sub d _ q hq with h | h
            · exact Or.inl h
            · exact Or.inr (Or.inr (Or.inr ⟨hk, ⟨x, xs, rfl⟩, h⟩))
    rcases mem_foldl_step entries (walkStep store known_files fuel pre)
      (fun e q =>
        (pre ++ e.2 ∈ known_files ∧ q = (pre ++ e.2, e.1))
        ∨ (pre ++ e.2 ∉ known_files ∧ (store e.1 = .err ∨ store e.1 = .ok [])
            ∧ q = (pre ++ e.2, e.1))
        ∨ (pre ++ e.2 ∉ known_files ∧ (∃ x xs, store e.1 = .ok (x :: xs))
            ∧ q ∈ walk_directory store known_files fuel e.1 (pre ++ e.2 ++ "/")))
      hstep [] q hq with h | h
    · simp at h
    · exact h


/-- Witness for C2 at a concrete store: `"known.txt"` is recorded via
`knownPaths` (even though its address would list as a directory —
no probe happens), `"dir"` probes as a directory and contributes its
nested `"dir/x"`, and `"file.bin"` probes empty and is recorded as a
file. -/
theorem walk_classification_witness :
    ("known.txt" ∈ dkeys (walk_directory
        (fun c => if c = 0 then .ok [(1, "known.txt"), (2, "dir"), (3, "file.bin")]
                  else if c = 1 then .ok [(7, "y")]
                  else if c = 2 then .ok [(9, "x")]
                  else .ok ([] : List (Nat × String)))
        ["known.txt"] 3 0 ""))
    ∧ ("dir/x" ∈ dkeys (walk_directory
        (fun c => if c = 0 then .ok [(1, "known.txt"), (2, "dir"), (3, "file.bin")]
                  else if c = 1 then .ok [(7, "y")]
                  else if c = 2 then .ok [(9, "x")]
                  else .ok ([] : List (Nat × String)))
        ["known.txt"] 3 0 ""))
    ∧ ("file.bin" ∈ dkeys (walk_directory
        (fun c => if c = 0 then .ok [(1, "known.txt"), (2, "dir"), (3, "file.bin")]
                  else if c = 1 then .ok [(7, "y")]
                  else if c = 2 then .ok [(9, "x")]
                  else .ok ([] : List (Nat × String)))
        ["known.txt"] 3 0 "")) := by
  have h := walk_classification
    (fun c => if c = 0 then .ok [(1, "known.txt"), (2, "dir"), (3, "file.bin")]
              else if c = 1 then .ok [(7, "y")]
              else if c = 2 then .ok [(9, "x")]
              else .ok ([] : List (Nat × String)))
    ["known.txt"] 2 0 "" [(1, "known.txt"), (2, "dir"), (3, "file.bin")] rfl
  refine ⟨h.1 (1, "known.txt") (by decide) (by decide), ?_, ?_⟩
  · exact h.2.2.1 (2, "dir") (by decide) (by decide) (9, "x") [] rfl "dir/x"
      (by decide)
  · exact h.2.1 (3, "file.bin") (by decide) (by decide) (Or.inr rfl)


/-- C5: over a root whose single entry is a directory literally named
`"image.jpg"` (address 1) containing the nested file `"content.txt"`
(address 2), the default heuristic merge records a single top-level
entry `"image.jpg"` classified as a file whose address is the
directory's own address 1 — the built directory links it as a file leaf
and the nested file is invisible; the exhaustive merge
(`--force-check-directories`) records the nested path and builds
`"image.jpg"` as a traversable directory node through which
`"content.txt"` is reachable. -/
theorem heuristic_vs_exhaustive :
    (merge_survivors (merge_walks
        (fun c => if c = 0 then .ok [(1, "image.jpg")]
                  else if c = 1 then .ok [(2, "content.txt")]
                  else .ok ([] : List (Nat × String)))
        ends_with_jpg 3 [0] false)
      = [("image.jpg", 1)])
    ∧ ((merge_root_cids
        (fun c => if c = 0 then .ok [(1, "image.jpg")]
                  else if c = 1 then .ok [(2, "content.txt")]
                  else .ok ([] : List (Nat × String)))
        ends_with_jpg 3 [0] false).1
      = some (Tree.node [("image.jpg", Tree.leaf 1)]))
    ∧ (merge_survivors (merge_walks
        (fun c => if c = 0 then .ok [(1, "image.jpg")]
                  else if c = 1 then .ok [(2, "content.txt")]
                  else .ok ([] : List (Nat × String)))
        ends_with_jpg 3 [0] true)
      = [("image.jpg/content.txt", 2)])
    ∧ ((merge_root_cids
        (fun c => if c = 0 then .ok [(1, "image.jpg")]
                  else if c = 1 then .ok [(2, "content.txt")]
                  else .ok ([] : List (Nat × String)))
        ends_with_jpg 3 [0] true).1
      = some (Tree.node
          [("image.jpg", Tree.node [("content.txt", Tree.leaf 2)])])) := by
  refine ⟨?_, ?_, ?_, ?_⟩ <;> rfl


theorem joinComps_cons (n : String) (rest : List String) (h : rest ≠ []) :
    joinComps (n :: rest) = n ++ "/" ++ joinComps rest := by
  rcases rest with _ | ⟨m, rest⟩
  · exact absurd rfl h
  · rfl


theorem splitChars_append_slash (cs : List Char) (r : List Char)
    (h : '/' ∉ cs) :
    splitChars (cs ++ '/' :: r) = String.mk cs :: splitChars r := by
  induction cs with
  | nil => simp [splitChars]
  | cons c cs ih =>
    rw [List.mem_cons, not_or] at h
    have hc : ¬ (c = '/') := fun hc => h.1 hc.symm
    rw [List.cons_append, splitChars, if_neg hc, ih h.2]


theorem splitChars_noSlash (cs : List Char) (h : '/' ∉ cs) :
    splitChars cs = [String.mk cs] := by
  induction cs with
  | nil => rfl
  | cons c cs ih =>
    rw [List.mem_cons, not_or] at h
    have hc : ¬ (c = '/') := fun hc => h.1 hc.symm
    rw [splitChars, if_neg hc, ih h.2]


theorem splitPath_joinComps (cs : List String) (hne : cs ≠ [])
    (h : ∀ n ∈ cs, noSlash n) :
    splitPath (joinComps cs) = cs := by
  induction cs with
  | nil => exact absurd rfl hne
  | cons n rest ih =>
    rcases rest with _ | ⟨m, rest⟩
    · exact splitChars_noSlash n.data (h n (List.mem_cons_self n []))
    · rw [joinComps_cons n (m :: rest) (by simp), splitPath,
        String.data_append, String.data_append]
      have hsplit : splitChars (n.data ++ "/".data ++ (joinComps (m :: rest)).data)
          = String.mk n.data :: splitChars (joinComps (m :: rest)).data := by
        rw [List.append_assoc]
        exact splitChars_append_slash n.data _ (h n (List.mem_cons_self n _))
      rw [hsplit]
      have hrest := ih (by simp) (fun x hx => h x (List.mem_cons_of_mem n hx))
      rw [splitPath] at hrest
      rw [hrest]


theorem joinComps_injective (cs cs' : List String)
    (hne : cs ≠ []) (hne' : cs' ≠ [])
    (h : ∀ n ∈ cs, noSlash n) (h' : ∀ n ∈ cs', noSlash n)
    (heq : joinComps cs = joinComps cs') : cs = cs' := by
  have hs := splitPath_joinComps cs hne h
  rw [heq, splitPath_joinComps cs' hne' h'] at hs
  exact hs.symm


/-- Discrimination: two slash-free names followed by a slash boundary
(or nothing) can only produce equal character streams when the names are
equal. -/
theorem slashfree_head_eq (a : List Char) : ∀ (b r s : List Char),
    ('/' ∉ a) → ('/' ∉ b) →
    (r = [] ∨ ∃ r', r = '/' :: r') →
    (s = [] ∨ ∃ s', s = '/' :: s') →
    a ++ r = b ++ s → a = b := by
  induction a with
  | nil =>
    intro b r s ha hb hr hs heq
    rcases b with _ | ⟨c, b⟩
    · rfl
    · exfalso
      rcases hr with rfl | ⟨r', rfl⟩
      · simp at heq
      · have h2 : ('/' :: r' : List Char) = c :: (b ++ s) := by simpa using heq
        injection h2 with h3 _
        rw [List.mem_cons, not_or] at hb
        exact hb.1 h3
  | cons c a ih =>
    intro b r s ha hb hr hs heq
    rcases b with _ | ⟨c', b⟩
    · exfalso
      rcases hs with rfl | ⟨s', rfl⟩
      · simp at heq
      · have h2 : ('/' :: s' : List Char) = c :: (a ++ r) := by
          simpa using heq.symm
        injection h2 with h3 _
        rw [List.mem_cons, not_or] at ha
        exact ha.1 h3
    · rw [List.cons_append, List.cons_append] at heq
      injection heq with h1 h2
      rw [List.mem_cons, not_or] at ha hb
      rw [h1, ih b r s ha.2 hb.2 hr hs h2]


theorem subtreeAt_nil (t : Tree α) : subtreeAt t [] = some t := by
  rw [subtreeAt.eq_def]
  cases t <;> rfl


theorem subtreeAt_leaf_cons (c : α) (n : String) (rest : List String) :
    subtreeAt (Tree.leaf c) (n :: rest) = none := by
  rw [subtreeAt.eq_def]


theorem subtreeAt_node_cons (es : List (String × Tree α)) (n : String)
    (rest : List String) :
    subtreeAt (Tree.node es) (n :: rest)
      = match dlookup es n with
        | none => none
        | some t' => subtreeAt t' rest := by
  rw [subtreeAt.eq_def]


theorem height_le_of_mem (es : List (String × Tree α)) (e : String × Tree α)
    (h : e ∈ es) : Tree.height e.2 ≤ heightEntries es := by
  induction es with
  | nil => simp at h
  | cons x es ih =>
    rw [heightEntries]
    rcases List.mem_cons.mp h with rfl | h
    · exact Nat.le_max_left _ _
    · exact Nat.le_trans (ih h) (Nat.le_max_right _ _)


theorem height_lt_of_mem (es : List (String × Tree α)) (e : String × Tree α)
    (h : e ∈ es) : Tree.height e.2 < Tree.height (Tree.node es) := by
  rw [Tree.height]
  exact Nat.lt_of_le_of_lt (height_le_of_mem es e h) (by omega)


theorem entryPaths_cons (n : String) (t : Tree α)
    (es : List (String × Tree α)) (pre : String) :
    entryPaths ((n, t) :: es) pre
      = (match t with
         | .leaf c => [(pre ++ n, Tree.leaf c)]
         | .node [] => [(pre ++ n, Tree.node [])]
         | .node (e :: es') => treePaths (Tree.node (e :: es')) (pre ++ n ++ "/"))
        ++ entryPaths es pre := by
  rw [entryPaths.eq_def]


theorem entryPaths_append (es fs : List (String × Tree α)) (pre : String) :
    entryPaths (es ++ fs) pre = entryPaths es pre ++ entryPaths fs pre := by
  induction es with
  | nil => simp [entryPaths]
  | cons e es ih =>
    rcases e with ⟨n, t⟩
    rw [List.cons_append, entryPaths_cons, entryPaths_cons, ih, List.append_assoc]


/-! ### Walks over the tree store compute `treePaths` -/

theorem string_data_inj (s t : String) (h : s.data = t.data) : s = t :=
  congrArg String.mk h


theorem walkStep_no_known (store : Store α) (fuel : Nat) (P : String)
    (d : Dict α) (b : α × String) :
    walkStep store [] fuel P d b
      = match store b.1 with
        | .ok (_ :: _) =>
          dupdate d (walk_directory store [] fuel b.1 (P ++ b.2 ++ "/"))
        | _ => dinsert d (P ++ b.2) b.1 := by
  rw [walkStep, if_neg (List.not_mem_nil _)]


/-- Every key a walk discovers extends the walk's path prefix. -/
theorem walk_keys_shape (store : Store α) (fuel : Nat) : ∀ (c : α) (P : String),
    ∀ k ∈ dkeys (walk_directory store [] fuel c P),
      ∃ s : List Char, k.data = P.data ++ s := by
  induction fuel with
  | zero =>
    intro c P k hk
    simp [walk_directory, dkeys] at hk
  | succ fuel ih =>
    intro c P k hk
    rcases hst : store c with _ | entries
    · rw [walk_directory, hst] at hk
      simp [dkeys] at hk
    · rw [walk_directory_succ store [] fuel c P entries hst] at hk
      rcases List.mem_map.mp hk with ⟨q, hq, rfl⟩
      have hstep : ∀ (d : Dict α) (b : α × String) (q : String × α),
          q ∈ walkStep store [] fuel P d b → q ∈ d ∨
            ∃ s : List Char, q.1.data = P.data ++ s := by
        intro d b q hqs
        rw [walkStep_no_known] at hqs
        rcases hb : store b.1 with _ | es
        · rw [hb] at hqs
          rcases mem_dinsert_sub d _ b.1 q hqs with h | h
          · exact Or.inl h
          · refine Or.inr ⟨b.2.data, ?_⟩
            rw [h]
            exact String.data_append P b.2
        · rcases es with _ | ⟨x, xs⟩
          · rw [hb] at hqs
            rcases mem_dinsert_sub d _ b.1 q hqs with h | h
            · exact Or.inl h
            · refine Or.inr ⟨b.2.data, ?_⟩
              rw [h]
              exact String.data_append P b.2
          · rw [hb] at hqs
            rcases mem_dupdate_sub d _ q hqs with h | h
            · exact Or.inl h
            · have hk' : q.1 ∈ dkeys (walk_directory store [] fuel b.1
                  (P ++ b.2 ++ "/")) := List.mem_map.mpr ⟨q, h, rfl⟩
              rcases ih b.1 (P ++ b.2 ++ "/") q.1 hk' with ⟨s, hs⟩
              refine Or.inr ⟨b.2.data ++ ('/' :: s), ?_⟩
              rw [hs, String.data_append, String.data_append]
              simp [List.append_assoc]
      rcases mem_foldl_step entries (walkStep store [] fuel P)
        (fun _ q => ∃ s : List Char, q.1.data = P.data ++ s)
        (fun d b q h => hstep d b q h) [] q hq with h | ⟨_, _, h⟩
      · simp at h
      · exact h


theorem dupdate_eq_append (d e : Dict α)
    (hdisj : ∀ k ∈ dkeys e, k ∉ dkeys d) (he : (dkeys e).Nodup) :
    dupdate d e = d ++ e := by
  induction e generalizing d with
  | nil => simp [dupdate]
  | cons x e ih =>
    have hx : x.1 ∉ dkeys d := hdisj x.1 (by simp [dkeys])
    have hins : dinsert d x.1 x.2 = d ++ [x] := by
      have hm : dmem d x.1 = false := (dmem_eq_false_iff d x.1).mpr hx
      rw [dinsert, hm]
      simp
    rw [dkeys, List.map_cons, List.nodup_cons] at he
    have hstep : dupdate d (x :: e) = dupdate (d ++ [x]) e := by
      rw [dupdate, List.foldl_cons, hins, ← dupdate]
    rw [hstep, ih (d ++ [x]) ?_ he.2, List.append_assoc]
    · rfl
    · intro k hk
      rw [dkeys_append]
      intro hc
      rcases List.mem_append.mp hc with hc | hc
      · exact hdisj k (List.mem_cons_of_mem x.1 hk) hc
      · have hkx : k = x.1 := by simpa [dkeys] using hc
        exact he.1 (hkx ▸ hk)


theorem shape_key_ne (P n n' : String) (tail tail' : List Char)
    (hn0 : n ≠ "") (hslash : noSlash n) (hslash' : noSlash n')
    (htail : tail = [] ∨ ∃ r, tail = '/' :: r)
    (htail' : tail' = [] ∨ ∃ r, tail' = '/' :: r)
    (hne : n ≠ n') :
    P.data ++ (n.data ++ tail) ≠ P.data ++ (n'.data ++ tail') := by
  intro h
  have h2 : n.data ++ tail = n'.data ++ tail' := List.append_cancel_left h
  exact hne (string_data_inj n n'
    (slashfree_head_eq n.data n'.data tail tail' hslash hslash' htail htail' h2))


/-- Under the ideal tree store, the walk of a well-formed tree computes
exactly its `treePaths`. -/
theorem walk_eq_treePaths (fuel : Nat) : ∀ (t : Tree α) (P : String),
    Tree.Good t → Tree.height t < fuel →
    walk_directory treeStore [] fuel t P = treePaths t P := by
  induction fuel with
  | zero =>
    intro t P _ hh
    exact absurd hh (Nat.not_lt_zero _)
  | succ fuel ih =>
    intro t P hg hh
    cases t with
    | leaf c =>
      rw [walk_directory_succ treeStore [] fuel (Tree.leaf c) P [] rfl]
      rw [treePaths.eq_def]
      rfl
    | node es =>
      have hts : treeStore (Tree.node es)
          = LsResult.ok (es.map (fun e => (e.2, e.1))) := rfl
      rw [walk_directory_succ treeStore [] fuel (Tree.node es) P _ hts]
      rw [treePaths.eq_def]
      rcases hg with _ | ⟨_, hnames, hvalid, hch, hnonempty⟩
      have hhe : heightEntries es < fuel := by
        rw [Tree.height] at hh
        omega
      -- inner induction over the entry list
      have inner : ∀ (es' : List (String × Tree α)) (d : Dict (Tree α))
          (processed : List String),
          (∀ e ∈ es', e.1 ≠ "" ∧ noSlash e.1) →
          (∀ e ∈ es', Tree.Good e.2) →
          (∀ e ∈ es', ∀ es'', e.2 = Tree.node es'' → es'' ≠ []) →
          (∀ e ∈ es', Tree.height e.2 < fuel) →
          ((processed ++ es'.map Prod.fst).Nodup) →
          (∀ n ∈ processed, n ≠ "" ∧ noSlash n) →
          (∀ k ∈ dkeys d, ∃ n ∈ processed, ∃ tail,
            k.data = P.data ++ (n.data ++ tail)
            ∧ (tail = [] ∨ ∃ r, tail = '/' :: r)) →
          (es'.map (fun e => (e.2, e.1))).foldl (walkStep treeStore [] fuel P) d
            = d ++ entryPaths es' P := by
        intro es'
        induction es' with
        | nil =>
          intro d processed _ _ _ _ _ _ _
          rw [entryPaths]
          simp
        | cons e es' ihes =>
          intro d processed hval hgood hnn hht hnd hproc hdk
          rcases e with ⟨n, t⟩
          rw [List.map_cons, List.foldl_cons]
          have hvn := hval (n, t) (List.mem_cons_self _ _)
          have hkey_new : ∀ tail, (tail = [] ∨ ∃ r, tail = '/' :: r) →
              ∀ k : String, k.data = P.data ++ (n.data ++ tail) →
              k ∉ dkeys d := by
            intro tail htail k hk hmem
            rcases hdk k hmem with ⟨n', hn', tail', hk', htail'⟩
            have hnn' : n ≠ n' := by
              intro hc
              rw [List.nodup_append] at hnd
              exact hnd.2.2 (hc ▸ hn') (by simp)
            exact shape_key_ne P n n' tail tail' hvn.1 hvn.2
              (hproc n' hn').2 htail htail' hnn' (hk ▸ hk' ▸ rfl)
          have hself_shape : (P ++ n).data = P.data ++ (n.data ++ []) := by
            rw [String.data_append]
            simp
          rcases t with c | ets
          · -- a leaf child: recorded as a file
            have hstep : walkStep treeStore [] fuel P d (Tree.leaf c, n)
                = d ++ [(P ++ n, Tree.leaf c)] := by
              rw [walkStep_no_known]
              show dinsert d (P ++ n) (Tree.leaf c) = _
              have hm : dmem d (P ++ n) = false :=
                (dmem_eq_false_iff d (P ++ n)).mpr
                  (hkey_new [] (Or.inl rfl) (P ++ n) hself_shape)
              rw [dinsert, hm]
              simp
            rw [hstep]
            rw [ihes (d ++ [(P ++ n, Tree.leaf c)]) (processed ++ [n])
              (fun e he => hval e (List.mem_cons_of_mem _ he))
              (fun e he => hgood e (List.mem_cons_of_mem _ he))
              (fun e he => hnn e (List.mem_cons_of_mem _ he))
              (fun e he => hht e (List.mem_cons_of_mem _ he))
              (by simpa [List.append_assoc] using hnd)
              (by
                intro m hm
                rcases List.mem_append.mp hm with hm | hm
                · exact hproc m hm
                · rw [List.mem_singleton.mp hm]
                  exact hvn)
              (by
                intro k hk
                rw [dkeys_append] at hk
                rcases List.mem_append.mp hk with hk | hk
                · rcases hdk k hk with ⟨m, hm, tail, h1, h2⟩
                  exact ⟨m, List.mem_append_left _ hm, tail, h1, h2⟩
                · have hkn : k = P ++ n := by simpa [dkeys] using hk
                  exact ⟨n, List.mem_append_right _ (by simp), [],
                    hkn ▸ hself_shape, Or.inl rfl⟩)]
            rw [entryPaths_cons, List.append_assoc]
          · rcases ets with _ | ⟨x, xs⟩
            · -- an empty directory child is excluded by well-formedness
              exact absurd rfl (hnn (n, Tree.node []) (List.mem_cons_self _ _) [] rfl)
            · -- a directory child: recurse
              have hrec : walk_directory treeStore [] fuel (Tree.node (x :: xs))
                  (P ++ n ++ "/") = treePaths (Tree.node (x :: xs)) (P ++ n ++ "/") :=
                ih (Tree.node (x :: xs)) (P ++ n ++ "/")
                  (hgood (n, Tree.node (x :: xs)) (List.mem_cons_self _ _))
                  (hht (n, Tree.node (x :: xs)) (List.mem_cons_self _ _))
              have hrec_nodup : (dkeys (treePaths (Tree.node (x :: xs))
                  (P ++ n ++ "/"))).Nodup := by
                rw [← hrec]
                exact walk_directory_keys_nodup treeStore [] fuel _ _
              have hrec_shape : ∀ k ∈ dkeys (treePaths (Tree.node (x :: xs))
                  (P ++ n ++ "/")), ∃ s : List Char,
                  k.data = P.data ++ (n.data ++ ('/' :: s)) := by
                intro k hk
                rw [← hrec] at hk
                rcases walk_keys_shape treeStore fuel _ _ k hk with ⟨s, hs⟩
                refine ⟨s, ?_⟩
                rw [hs, String.data_append, String.data_append]
                simp [List.append_assoc]
              have hstep : walkStep treeStore [] fuel P d (Tree.node (x :: xs), n)
                  = d ++ treePaths (Tree.node (x :: xs)) (P ++ n ++ "/") := by
                rw [walkStep_no_known]
                show dupdate d (walk_directory treeStore [] fuel
                  (Tree.node (x :: xs)) (P ++ n ++ "/")) = _
                rw [hrec]
                refine dupdate_eq_append d _ ?_ hrec_nodup
                intro k hk
                rcases hrec_shape k hk with ⟨s, hs⟩
                exact hkey_new ('/' :: s) (Or.inr ⟨s, rfl⟩) k hs
              rw [hstep]
              rw [ihes (d ++ treePaths (Tree.node (x :: xs)) (P ++ n ++ "/"))
                (processed ++ [n])
                (fun e he => hval e (List.mem_cons_of_mem _ he))
                (fun e he => hgood e (List.mem_cons_of_mem _ he))
                (fun e he => hnn e (List.mem_cons_of_mem _ he))
                (fun e he => hht e (List.mem_cons_of_mem _ he))
                (by simpa [List.append_assoc] using hnd)
                (by
                  intro m hm
                  rcases List.mem_append.mp hm with hm | hm
                  · exact hproc m hm
                  · rw [List.mem_singleton.mp hm]
                    exact hvn)
                (by
                  intro k hk
                  rw [dkeys_append] at hk
                  rcases List.mem_append.mp hk with hk | hk
                  · rcases hdk k hk with ⟨m, hm, tail, h1, h2⟩
                    exact ⟨m, List.mem_append_left _ hm, tail, h1, h2⟩
                  · rcases hrec_shape k hk with ⟨s, hs⟩
                    exact ⟨n, List.mem_append_right _ (by simp), '/' :: s,
                      hs, Or.inr ⟨s, rfl⟩⟩)]
              rw [entryPaths_cons, List.append_assoc]
      have happly := inner es [] []
        hvalid hch hnonempty
        (fun e he => Nat.lt_of_le_of_lt (height_le_of_mem es e he) hhe)
        (by simpa using hnames)
        (by intro n hn; simp at hn)
        (by intro k hk; simp [dkeys] at hk)
      rw [happly]
      rfl


theorem entryPaths_eq_flatten (es : List (String × Tree α)) (pre : String) :
    entryPaths es pre = (es.map (entryOnePaths pre)).flatten := by
  induction es with
  | nil =>
    rw [entryPaths]
    simp
  | cons e es ih =>
    rcases e with ⟨n, t⟩
    rw [entryPaths_cons, List.map_cons, List.flatten_cons, ih]
    rfl


theorem mem_entryPaths_iff (es : List (String × Tree α)) (pre : String)
    (q : String × Tree α) :
    q ∈ entryPaths es pre ↔ ∃ e ∈ es, q ∈ entryOnePaths pre e := by
  rw [entryPaths_eq_flatten, List.mem_flatten]
  constructor
  · rintro ⟨l, hl, hq⟩
    rcases List.mem_map.mp hl with ⟨e, he, rfl⟩
    exact ⟨e, he, hq⟩
  · rintro ⟨e, he, hq⟩
    exact ⟨entryOnePaths pre e, List.mem_map.mpr ⟨e, he, rfl⟩, hq⟩


theorem prefix_join (P n : String) (cs : List String) (h : cs ≠ []) :
    P ++ joinComps (n :: cs) = (P ++ n ++ "/") ++ joinComps cs := by
  rw [joinComps_cons n cs h, ← String.append_assoc, ← String.append_assoc]


/-- The paths of a well-formed tree are exactly its leaves, each at the
slash-join of the component path that reaches it. -/
theorem treePaths_mem_iff (h : Nat) : ∀ (t : Tree α), Tree.height t ≤ h →
    Tree.Good t → ∀ (P k : String) (v : Tree α),
    ((k, v) ∈ treePaths t P
      ↔ ∃ cs c, cs ≠ [] ∧ subtreeAt t cs = some (Tree.leaf c)
          ∧ v = Tree.leaf c ∧ k = P ++ joinComps cs) := by
  induction h with
  | zero =>
    intro t hh hg P k v
    cases t with
    | leaf c =>
      rw [treePaths.eq_def]
      constructor
      · intro hm
        simp at hm
      · rintro ⟨cs, c', hne, hsub, _, _⟩
        rcases cs with _ | ⟨n, cs'⟩
        · exact absurd rfl hne
        · rw [subtreeAt_leaf_cons] at hsub
          exact Option.noConfusion hsub
    | node es =>
      exfalso
      rw [Tree.height] at hh
      omega
  | succ h ih =>
    intro t hh hg P k v
    cases t with
    | leaf c =>
      rw [treePaths.eq_def]
      constructor
      · intro hm
        simp at hm
      · rintro ⟨cs, c', hne, hsub, _, _⟩
        rcases cs with _ | ⟨n, cs'⟩
        · exact absurd rfl hne
        · rw [subtreeAt_leaf_cons] at hsub
          exact Option.noConfusion hsub
    | node es =>
      rcases hg with _ | ⟨_, hnames, hvalid, hch, hne_ch⟩
      have hhe : heightEntries es ≤ h := by
        rw [Tree.height] at hh
        omega
      have htp : treePaths (Tree.node es) P = entryPaths es P := by
        rw [treePaths.eq_def]
      rw [htp, mem_entryPaths_iff]
      constructor
      · rintro ⟨⟨n, t'⟩, he, hq⟩
        rcases t' with c | ets
        · -- leaf entry
          rw [entryOnePaths] at hq
          have hkv := List.mem_singleton.mp hq
          rw [Prod.mk.injEq] at hkv
          obtain ⟨rfl, rfl⟩ := hkv
          refine ⟨[n], c, by simp, ?_, rfl, by rw [joinComps]⟩
          rw [subtreeAt_node_cons,
            mem_dlookup_of_nodup es hnames n (Tree.leaf c) he]
          rfl
        · rcases ets with _ | ⟨x, xs⟩
          · exact absurd rfl (hne_ch (n, Tree.node []) he [] rfl)
          · rw [entryOnePaths] at hq
            have hht : Tree.height (Tree.node (x :: xs)) ≤ h :=
              Nat.le_trans (height_le_of_mem es (n, Tree.node (x :: xs)) he) hhe
            rcases (ih (Tree.node (x :: xs)) hht
                (hch (n, Tree.node (x :: xs)) he) (P ++ n ++ "/") k v).mp hq
              with ⟨cs', c, hne', hsub', hv, hk⟩
            refine ⟨n :: cs', c, by simp, ?_, hv, ?_⟩
            · rw [subtreeAt_node_cons,
                mem_dlookup_of_nodup es hnames n (Tree.node (x :: xs)) he]
              exact hsub'
            · rw [prefix_join P n cs' hne', hk]
      · rintro ⟨cs, c, hne, hsub, rfl, rfl⟩
        rcases cs with _ | ⟨n, cs'⟩
        · exact absurd rfl hne
        · rw [subtreeAt_node_cons] at hsub
          rcases hlk : dlookup es n with _ | t₀
          · rw [hlk] at hsub
            exact Option.noConfusion hsub
          · rw [hlk] at hsub
            have hsub2 : subtreeAt t₀ cs' = some (Tree.leaf c) := hsub
            have hmem_e : (n, t₀) ∈ es := dlookup_mem es n t₀ hlk
            rcases cs' with _ | ⟨m, cs''⟩
            · rw [subtreeAt_nil] at hsub2
              rcases Option.some_inj.mp hsub2 with rfl
              refine ⟨(n, Tree.leaf c), hmem_e, ?_⟩
              rw [entryOnePaths, joinComps]
              exact List.mem_singleton.mpr rfl
            · rcases t₀ with c₀ | ets₀
              · rw [subtreeAt_leaf_cons] at hsub2
                exact Option.noConfusion hsub2
              · rcases ets₀ with _ | ⟨x, xs⟩
                · rw [subtreeAt_node_cons, dlookup_nil] at hsub2
                  exact Option.noConfusion hsub2
                · have hht : Tree.height (Tree.node (x :: xs)) ≤ h :=
                    Nat.le_trans
                      (height_le_of_mem es (n, Tree.node (x :: xs)) hmem_e) hhe
                  refine ⟨(n, Tree.node (x :: xs)), hmem_e, ?_⟩
                  rw [entryOnePaths]
                  rw [prefix_join P n (m :: cs'') (by simp)]
                  exact ((ih (Tree.node (x :: xs)) hht
                    (hch (n, Tree.node (x :: xs)) hmem_e) (P ++ n ++ "/")
                    ((P ++ n ++ "/") ++ joinComps (m :: cs''))
                    (Tree.leaf c)).mpr
                    ⟨m :: cs'', c, by simp, hsub2, rfl, rfl⟩)


/-! ### Inserting a fresh, prefix-free path into a built tree -/

theorem mfsCp_single (es : List (String × Tree α)) (n : String) (c : α) :
    mfsCp (Tree.node es) [n] c
      = if dmem es n then none
        else some (Tree.node (es ++ [(n, Tree.leaf c)])) := rfl


theorem mfsCp_cons_leaf (es : List (String × Tree α)) (n m : String)
    (cs : List String) (c c₀ : α) (h : dlookup es n = some (Tree.leaf c₀)) :
    mfsCp (Tree.node es) (n :: m :: cs) c = none := by
  show (match dlookup es n with
        | some (Tree.leaf _) => none
        | some (Tree.node es') =>
          (mfsCp (Tree.node es') (m :: cs) c).map
            (fun t' => Tree.node (es.map (fun p => if p.1 = n then (n, t') else p)))
        | none =>
          (mfsCp (Tree.node []) (m :: cs) c).map
            (fun t' => Tree.node (es ++ [(n, t')]))) = none
  rw [h]


theorem mfsCp_cons_node (es es₀ : List (String × Tree α)) (n m : String)
    (cs : List String) (c : α) (h : dlookup es n = some (Tree.node es₀)) :
    mfsCp (Tree.node es) (n :: m :: cs) c
      = (mfsCp (Tree.node es₀) (m :: cs) c).map
          (fun t' => Tree.node (es.map (fun p => if p.1 = n then (n, t') else p))) := by
  show (match dlookup es n with
        | some (Tree.leaf _) => none
        | some (Tree.node es') =>
          (mfsCp (Tree.node es') (m :: cs) c).map
            (fun t' => Tree.node (es.map (fun p => if p.1 = n then (n, t') else p)))
        | none =>
          (mfsCp (Tree.node []) (m :: cs) c).map
            (fun t' => Tree.node (es ++ [(n, t')])))
      = (mfsCp (Tree.node es₀) (m :: cs) c).map
          (fun t' => Tree.node (es.map (fun p => if p.1 = n then (n, t') else p)))
  rw [h]


theorem mfsCp_cons_none (es : List (String × Tree α)) (n m : String)
    (cs : List String) (c : α) (h : dlookup es n = none) :
    mfsCp (Tree.node es) (n :: m :: cs) c
      = (mfsCp (Tree.node []) (m :: cs) c).map
          (fun t' => Tree.node (es ++ [(n, t')])) := by
  show (match dlookup es n with
        | some (Tree.leaf _) => none
        | some (Tree.node es') =>
          (mfsCp (Tree.node es') (m :: cs) c).map
            (fun t' => Tree.node (es.map (fun p => if p.1 = n then (n, t') else p)))
        | none =>
          (mfsCp (Tree.node []) (m :: cs) c).map
            (fun t' => Tree.node (es ++ [(n, t')])))
      = (mfsCp (Tree.node []) (m :: cs) c).map
          (fun t' => Tree.node (es ++ [(n, t')]))
  rw [h]


theorem subtreeAt_cons_some (es : List (String × Tree α)) (n : String)
    (rest : List String) (t₀ : Tree α) (h : dlookup es n = some t₀) :
    subtreeAt (Tree.node es) (n :: rest) = subtreeAt t₀ rest := by
  rw [subtreeAt_node_cons, h]


theorem subtreeAt_cons_none (es : List (String × Tree α)) (n : String)
    (rest : List String) (h : dlookup es n = none) :
    subtreeAt (Tree.node es) (n :: rest) = none := by
  rw [subtreeAt_node_cons, h]


theorem subtreeAt_cons_congr (es es' : List (String × Tree α)) (a : String)
    (rest : List String) (h : dlookup es a = dlookup es' a) :
    subtreeAt (Tree.node es) (a :: rest) = subtreeAt (Tree.node es') (a :: rest) := by
  rw [subtreeAt_node_cons, subtreeAt_node_cons, h]


theorem map_fst_overwrite (es : List (String × Tree α)) (n : String)
    (x : Tree α) :
    (es.map (fun p => if p.1 = n then (n, x) else p)).map Prod.fst
      = es.map Prod.fst := by
  induction es with
  | nil => rfl
  | cons p es ih =>
    by_cases hp : p.1 = n
    · simp only [List.map_cons, if_pos hp, ih]
      rw [hp]
    · simp only [List.map_cons, if_neg hp, ih]


theorem node_ne_nil_of_subtree (es : List (String × Tree α)) (n : String)
    (rest : List String) (x : Tree α)
    (h : subtreeAt (Tree.node es) (n :: rest) = some x) : es ≠ [] := by
  rintro rfl
  rw [subtreeAt_cons_none [] n rest (dlookup_nil n)] at h
  exact Option.noConfusion h


theorem good_node_empty : Tree.Good (Tree.node ([] : List (String × Tree α))) := by
  refine Tree.Good.node [] (by simp) ?_ ?_ ?_ <;> intro e he <;> simp at he


theorem cons_prefix_cons_of (a : String) (l m : List String) (h : l <+: m) :
    (a :: l) <+: (a :: m) := by
  rcases h with ⟨t, rfl⟩
  exact ⟨t, rfl⟩


theorem empty_node_no_leaf (cs : List String) (c : α) :
    subtreeAt (Tree.node ([] : List (String × Tree α))) cs
      ≠ some (Tree.leaf c) := by
  intro hc
  rcases cs with _ | ⟨b, rest⟩
  · rw [subtreeAt_nil] at hc
    exact Tree.noConfusion (Option.some_inj.mp hc)
  · rw [subtreeAt_cons_none [] b rest (dlookup_nil b)] at hc
    exact Option.noConfusion hc


/-- Copying a fresh path (`subtreeAt t cs = none`) none of whose
prefixes is a file succeeds, keeps the tree well-formed, and changes the
leaves by exactly the new one; new interior nodes appear only along the
inserted path. -/
theorem mfsCp_insert (cs : List String) : ∀ (es : List (String × Tree α)) (c : α),
    Tree.Good (Tree.node es) → (∀ n ∈ cs, n ≠ "" ∧ noSlash n) → cs ≠ [] →
    (∀ cs' c', cs' <+: cs → subtreeAt (Tree.node es) cs' ≠ some (Tree.leaf c')) →
    subtreeAt (Tree.node es) cs = none →
    ∃ es', mfsCp (Tree.node es) cs c = some (Tree.node es')
      ∧ Tree.Good (Tree.node es')
      ∧ (∀ cs' c', subtreeAt (Tree.node es') cs' = some (Tree.leaf c')
          ↔ (subtreeAt (Tree.node es) cs' = some (Tree.leaf c')
              ∨ (cs' = cs ∧ c' = c)))
      ∧ (∀ cs' es'', cs' ≠ [] →
          subtreeAt (Tree.node es') cs' = some (Tree.node es'')
          → ((∃ es₀, subtreeAt (Tree.node es) cs' = some (Tree.node es₀))
              ∨ (cs' <+: cs ∧ cs' ≠ cs))) := by
  induction cs with
  | nil =>
    intro es c _ _ hne _ _
    exact absurd rfl hne
  | cons n cs ih =>
    intro es c hg hval hne h1 h2
    rcases hg with _ | ⟨_, hnames, hvalid, hch, hne_ch⟩
    rcases cs with _ | ⟨m, cs'⟩
    · -- final component: append the leaf
      have hlknone : dlookup es n = none := by
        rcases hlk : dlookup es n with _ | t₀
        · rfl
        · exfalso
          rw [subtreeAt_cons_some es n [] t₀ hlk, subtreeAt_nil] at h2
          exact Option.noConfusion h2
      have hdm : dmem es n = false := by
        rw [dmem_eq_false_iff, ← dlookup_eq_none_iff]
        exact hlknone
      have hlknew : dlookup (es ++ [(n, Tree.leaf c)]) n
          = some (Tree.leaf c) := by
        have heq : es ++ [(n, Tree.leaf c)] = dinsert es n (Tree.leaf c) := by
          rw [dinsert, hdm]
          simp
        rw [heq, dlookup_dinsert_self]
      refine ⟨es ++ [(n, Tree.leaf c)], ?_, ?_, ?_, ?_⟩
      · rw [mfsCp_single, hdm]
        rfl
      · refine Tree.Good.node _ ?_ ?_ ?_ ?_
        · rw [List.map_append, List.nodup_append]
          refine ⟨hnames, by simp, ?_⟩
          intro a ha hb
          simp only [List.map_cons, List.map_nil, List.mem_singleton] at hb
          rw [dmem_eq_false_iff] at hdm
          exact hdm (hb ▸ ha)
        · intro e he
          rcases List.mem_append.mp he with he | he
          · exact hvalid e he
          · rw [List.mem_singleton.mp he]
            exact hval n (List.mem_cons_self n [])
        · intro e he
          rcases List.mem_append.mp he with he | he
          · exact hch e he
          · rw [List.mem_singleton.mp he]
            exact Tree.Good.leaf c
        · intro e he es'' hes
          rcases List.mem_append.mp he with he | he
          · exact hne_ch e he es'' hes
          · rw [List.mem_singleton.mp he] at hes
            exact Tree.noConfusion hes
      · intro cs' c'
        rcases cs' with _ | ⟨a, rest⟩
        · rw [subtreeAt_nil, subtreeAt_nil]
          constructor
          · intro hc
            exact Tree.noConfusion (Option.some_inj.mp hc)
          · rintro (hc | ⟨hc, _⟩)
            · exact absurd (Option.some_inj.mp hc) (fun h => Tree.noConfusion h)
            · exact List.noConfusion hc
        · by_cases ha : a = n
          · subst ha
            rw [subtreeAt_cons_some _ a rest _ hlknew,
              subtreeAt_cons_none es a rest hlknone]
            rcases rest with _ | ⟨b, rest⟩
            · rw [subtreeAt_nil]
              constructor
              · intro hc
                refine Or.inr ⟨rfl, ?_⟩
                injection Option.some_inj.mp hc with h
                exact h.symm
              · rintro (hc | ⟨_, rfl⟩)
                · exact Option.noConfusion hc
                · rfl
            · rw [subtreeAt_leaf_cons]
              constructor
              · intro hc
                exact Option.noConfusion hc
              · rintro (hc | ⟨hc, _⟩)
                · exact Option.noConfusion hc
                · injection hc with _ hc2
                  exact absurd hc2 (by simp)
          · rw [subtreeAt_cons_congr _ es a rest
              (dlookup_append_single_ne es n a (Tree.leaf c) ha)]
            constructor
            · exact Or.inl
            · rintro (hc | ⟨hc, _⟩)
              · exact hc
              · injection hc with hc1 _
                exact absurd hc1 ha
      · intro cs' es'' hne' hsub
        rcases cs' with _ | ⟨a, rest⟩
        · exact absurd rfl hne'
        · by_cases ha : a = n
          · subst ha
            rw [subtreeAt_cons_some _ a rest _ hlknew] at hsub
            rcases rest with _ | ⟨b, rest⟩
            · rw [subtreeAt_nil] at hsub
              exact absurd (Option.some_inj.mp hsub)
                (fun h => Tree.noConfusion h)
            · rw [subtreeAt_leaf_cons] at hsub
              exact Option.noConfusion hsub
          · rw [subtreeAt_cons_congr _ es a rest
              (dlookup_append_single_ne es n a (Tree.leaf c) ha)] at hsub
            exact Or.inl ⟨es'', hsub⟩
    · -- interior component: descend or create
      rcases hlk : dlookup es n with _ | t₀
      · -- absent: create the intermediate directory inside an empty node
        have hfalse : ∀ cs'' c',
            subtreeAt (Tree.node ([] : List (String × Tree α))) cs''
              ≠ some (Tree.leaf c') := fun cs'' c' => empty_node_no_leaf cs'' c'
        have hsub2 : subtreeAt (Tree.node ([] : List (String × Tree α)))
            (m :: cs') = none := subtreeAt_cons_none [] m cs' (dlookup_nil m)
        rcases ih [] c good_node_empty
          (fun x hx => hval x (List.mem_cons_of_mem n hx)) (by simp)
          (fun cs'' c' _ => hfalse cs'' c') hsub2
          with ⟨es₀', hcp, hgood', hleaf', hnode'⟩
        have hsubnew : es₀' ≠ [] :=
          node_ne_nil_of_subtree es₀' m cs' (Tree.leaf c)
            ((hleaf' (m :: cs') c).mpr (Or.inr ⟨rfl, rfl⟩))
        have hdm : dmem es n = false := by
          rw [dmem_eq_false_iff, ← dlookup_eq_none_iff]
          exact hlk
        have hlknew : dlookup (es ++ [(n, Tree.node es₀')]) n
            = some (Tree.node es₀') := by
          have heq : es ++ [(n, Tree.node es₀')] = dinsert es n (Tree.node es₀') := by
            rw [dinsert, hdm]
            simp
          rw [heq, dlookup_dinsert_self]
        refine ⟨es ++ [(n, Tree.node es₀')], ?_, ?_, ?_, ?_⟩
        · rw [mfsCp_cons_none es n m cs' c hlk, hcp]
          rfl
        · refine Tree.Good.node _ ?_ ?_ ?_ ?_
          · rw [List.map_append, List.nodup_append]
            refine ⟨hnames, by simp, ?_⟩
            intro a ha hb
            simp only [List.map_cons, List.map_nil, List.mem_singleton] at hb
            rw [dmem_eq_false_iff] at hdm
            exact hdm (hb ▸ ha)
          · intro e he
            rcases List.mem_append.mp he with he | he
            · exact hvalid e he
            · rw [List.mem_singleton.mp he]
              exact hval n (List.mem_cons_self n _)
          · intro e he
            rcases List.mem_append.mp he with he | he
            · exact hch e he
            · rw [List.mem_singleton.mp he]
              exact hgood'
          · intro e he es'' hes
            rcases List.mem_append.mp he with he | he
            · exact hne_ch e he es'' hes
            · rw [List.mem_singleton.mp he] at hes
              injection hes with hes
              rw [← hes]
              exact hsubnew
        · intro cs'' c'
          rcases cs'' with _ | ⟨a, rest⟩
          · rw [subtreeAt_nil, subtreeAt_nil]
            constructor
            · intro hc
              exact Tree.noConfusion (Option.some_inj.mp hc)
            · rintro (hc | ⟨hc, _⟩)
              · exact absurd (Option.some_inj.mp hc) (fun h => Tree.noConfusion h)
              · exact List.noConfusion hc
          · by_cases ha : a = n
            · subst ha
              rw [subtreeAt_cons_some _ a rest _ hlknew,
                subtreeAt_cons_none es a rest hlk]
              constructor
              · intro hc
                rcases (hleaf' rest c').mp hc with hc | ⟨rfl, rfl⟩
                · exact absurd hc (hfalse rest c')
                · exact Or.inr ⟨rfl, rfl⟩
              · rintro (hc | ⟨hc, rfl⟩)
                · exact Option.noConfusion hc
                · injection hc with _ hc2
                  exact (hleaf' rest _).mpr (Or.inr ⟨hc2, rfl⟩)
            · rw [subtreeAt_cons_congr _ es a rest
                (dlookup_append_single_ne es n a (Tree.node es₀') ha)]
              constructor
              · exact Or.inl
              · rintro (hc | ⟨hc, _⟩)
                · exact hc
                · injection hc with hc1 _
                  exact absurd hc1 ha
        · intro cs'' es'' hne'' hsub
          rcases cs'' with _ | ⟨a, rest⟩
          · exact absurd rfl hne''
          · by_cases ha : a = n
            · subst ha
              rw [subtreeAt_cons_some _ a rest _ hlknew] at hsub
              rcases rest with _ | ⟨b, rest⟩
              · refine Or.inr ⟨⟨m :: cs', rfl⟩, ?_⟩
                intro hc
                injection hc with _ hc2
                exact List.noConfusion hc2
              · rcases hnode' (b :: rest) es'' (by simp) hsub with h | ⟨hp, hnp⟩
                · rcases h with ⟨es₀, h⟩
                  rw [subtreeAt_cons_none [] b rest (dlookup_nil b)] at h
                  exact Option.noConfusion h
                · refine Or.inr ⟨cons_prefix_cons_of a _ _ hp, ?_⟩
                  intro hc
                  injection hc with _ hc2
                  exact hnp hc2
            · rw [subtreeAt_cons_congr _ es a rest
                (dlookup_append_single_ne es n a (Tree.node es₀') ha)] at hsub
              exact Or.inl ⟨es'', hsub⟩
      · -- present: must be a directory; descend into it
        rcases t₀ with c₀ | es₀
        · exfalso
          refine h1 [n] c₀ ⟨m :: cs', rfl⟩ ?_
          rw [subtreeAt_cons_some es n [] _ hlk, subtreeAt_nil]
        · have hmem₀ : (n, Tree.node es₀) ∈ es := dlookup_mem es n _ hlk
          have hsub1 : ∀ cs'' c', cs'' <+: (m :: cs') →
              subtreeAt (Tree.node es₀) cs'' ≠ some (Tree.leaf c') := by
            intro cs'' c' hp hc
            refine h1 (n :: cs'') c' (cons_prefix_cons_of n _ _ hp) ?_
            rw [subtreeAt_cons_some es n cs'' _ hlk]
            exact hc
          have hsub2 : subtreeAt (Tree.node es₀) (m :: cs') = none := by
            rw [← subtreeAt_cons_some es n (m :: cs') _ hlk]
            exact h2
          rcases ih es₀ c (hch (n, Tree.node es₀) hmem₀)
            (fun x hx => hval x (List.mem_cons_of_mem n hx)) (by simp)
            hsub1 hsub2 with ⟨es₀', hcp, hgood', hleaf', hnode'⟩
          have hsubnew : es₀' ≠ [] :=
            node_ne_nil_of_subtree es₀' m cs' (Tree.leaf c)
              ((hleaf' (m :: cs') c).mpr (Or.inr ⟨rfl, rfl⟩))
          have hlknew : dlookup
              (es.map (fun p => if p.1 = n then (n, Tree.node es₀') else p)) n
              = some (Tree.node es₀') := by
            apply dlookup_overwrite_self
            exact (dlookup_isSome_iff es n).mp (by rw [hlk]; rfl)
          refine ⟨es.map (fun p => if p.1 = n then (n, Tree.node es₀') else p),
            ?_, ?_, ?_, ?_⟩
          · rw [mfsCp_cons_node es es₀ n m cs' c hlk, hcp]
            rfl
          · refine Tree.Good.node _ ?_ ?_ ?_ ?_
            · rw [map_fst_overwrite]
              exact hnames
            · intro e he
              rcases List.mem_map.mp he with ⟨p, hp, rfl⟩
              by_cases hpn : p.1 = n
              · rw [if_pos hpn]
                exact hpn ▸ hvalid p hp
              · rw [if_neg hpn]
                exact hvalid p hp
            · intro e he
              rcases List.mem_map.mp he with ⟨p, hp, rfl⟩
              by_cases hpn : p.1 = n
              · rw [if_pos hpn]
                exact hgood'
              · rw [if_neg hpn]
                exact hch p hp
            · intro e he es'' hes
              rcases List.mem_map.mp he with ⟨p, hp, rfl⟩
              by_cases hpn : p.1 = n
              · rw [if_pos hpn] at hes
                injection hes with hes
                rw [← hes]
                exact hsubnew
              · rw [if_neg hpn] at hes
                exact hne_ch p hp es'' hes
          · intro cs'' c'
            rcases cs'' with _ | ⟨a, rest⟩
            · rw [subtreeAt_nil, subtreeAt_nil]
              constructor
              · intro hc
                exact Tree.noConfusion (Option.some_inj.mp hc)
              · rintro (hc | ⟨hc, _⟩)
                · exact absurd (Option.some_inj.mp hc)
                    (fun h => Tree.noConfusion h)
                · exact List.noConfusion hc
            · by_cases ha : a = n
              · subst ha
                rw [subtreeAt_cons_some _ a rest _ hlknew,
                  subtreeAt_cons_some es a rest _ hlk]
                constructor
                · intro hc
                  rcases (hleaf' rest c').mp hc with hc | ⟨rfl, rfl⟩
                  · exact Or.inl hc
                  · exact Or.inr ⟨rfl, rfl⟩
                · rintro (hc | ⟨hc, rfl⟩)
                  · exact (hleaf' rest c').mpr (Or.inl hc)
                  · injection hc with _ hc2
                    exact (hleaf' rest _).mpr (Or.inr ⟨hc2, rfl⟩)
              · rw [subtreeAt_cons_congr _ es a rest
                  (dlookup_overwrite_ne es n a (Tree.node es₀') ha)]
                constructor
                · exact Or.inl
                · rintro (hc | ⟨hc, _⟩)
                  · exact hc
                  · injection hc with hc1 _
                    exact absurd hc1 ha
          · intro cs'' es'' hne'' hsub
            rcases cs'' with _ | ⟨a, rest⟩
            · exact absurd rfl hne''
            · by_cases ha : a = n
              · subst ha
                rw [subtreeAt_cons_some _ a rest _ hlknew] at hsub
                rcases rest with _ | ⟨b, rest⟩
                · refine Or.inl ⟨es₀, ?_⟩
                  rw [subtreeAt_cons_some es a [] _ hlk, subtreeAt_nil]
                · rcases hnode' (b :: rest) es'' (by simp) hsub with h | ⟨hp, hnp⟩
                  · rcases h with ⟨es₁, h⟩
                    refine Or.inl ⟨es₁, ?_⟩
                    rw [subtreeAt_cons_some es a (b :: rest) _ hlk]
                    exact h
                  · refine Or.inr ⟨cons_prefix_cons_of a _ _ hp, ?_⟩
                    intro hc
                    injection hc with _ hc2
                    exact hnp hc2
              · rw [subtreeAt_cons_congr _ es a rest
                  (dlookup_overwrite_ne es n a (Tree.node es₀') ha)] at hsub
                exact Or.inl ⟨es'', hsub⟩


/-! ### Folding `mfs cp` over a collision-free path mapping -/

theorem empty_string_append (s : String) : "" ++ s = s := by
  cases s
  rfl


theorem eq_of_mem_keys_nodup (M : List (β × γ))
    (hnodup : (M.map Prod.fst).Nodup) (x y : β × γ)
    (hx : x ∈ M) (hy : y ∈ M) (h : x.1 = y.1) : x = y := by
  induction M with
  | nil => simp at hx
  | cons a M ih =>
    rw [List.map_cons, List.nodup_cons] at hnodup
    rcases List.mem_cons.mp hx with rfl | hx' <;>
      rcases List.mem_cons.mp hy with rfl | hy'
    · rfl
    · exact absurd (List.mem_map.mpr ⟨y, hy', h.symm⟩) hnodup.1
    · exact absurd (List.mem_map.mpr ⟨x, hx', h⟩) hnodup.1
    · exact ih hnodup.2 hx' hy'


theorem key_not_in_prev (Mp L : List (List String × α)) (p : List String × α)
    (hnodup : ((Mp ++ p :: L).map Prod.fst).Nodup) (c₀ : α)
    (hmem : (p.1, c₀) ∈ Mp) : False := by
  rw [List.map_append, List.nodup_append] at hnodup
  exact hnodup.2.2 (List.mem_map.mpr ⟨(p.1, c₀), hmem, rfl⟩)
    (List.mem_map.mpr ⟨p, List.mem_cons_self p L, rfl⟩)


/-- The staging fold of `create_directory_via_mfs`, tracked entry by
entry: starting from a well-formed tree whose leaves are exactly the
processed prefix `Mp` of the mapping (and whose interior nodes all lie
strictly along processed paths), folding the remaining entries `L` keeps
the tree well-formed and ends with leaves exactly `Mp ++ L`. -/
theorem build_fold (L : List (List String × α)) :
    ∀ (es : List (String × Tree α)) (Mp : List (List String × α)),
    Tree.Good (Tree.node es) →
    (∀ p ∈ Mp ++ L, p.1 ≠ [] ∧ ∀ n ∈ p.1, n ≠ "" ∧ noSlash n) →
    ((Mp ++ L).map Prod.fst).Nodup →
    (∀ p ∈ Mp ++ L, ∀ q ∈ Mp ++ L, p.1 ≠ q.1 → ¬ (p.1 <+: q.1)) →
    (∀ cs c', subtreeAt (Tree.node es) cs = some (Tree.leaf c') ↔ (cs, c') ∈ Mp) →
    (∀ cs es'', cs ≠ [] → subtreeAt (Tree.node es) cs = some (Tree.node es'') →
        ∃ q ∈ Mp, cs ≠ q.1 ∧ cs <+: q.1) →
    ∃ es', L.foldl (fun t p =>
        match mfsCp t (splitPath (joinComps p.1)) p.2 with
        | some t' => t'
        | none => t) (Tree.node es) = Tree.node es'
      ∧ Tree.Good (Tree.node es')
      ∧ (∀ cs c', subtreeAt (Tree.node es') cs = some (Tree.leaf c')
          ↔ (cs, c') ∈ Mp ++ L) := by
  induction L with
  | nil =>
    intro es Mp hg _ _ _ hleaf _
    exact ⟨es, rfl, hg, by simpa using hleaf⟩
  | cons p L ih =>
    intro es Mp hg hval hnodup hnopre hleaf hnode
    have hpM : p ∈ Mp ++ p :: L :=
      List.mem_append_right Mp (List.mem_cons_self p L)
    have hpval := hval p hpM
    have hsp : splitPath (joinComps p.1) = p.1 :=
      splitPath_joinComps p.1 hpval.1 (fun n hn => (hpval.2 n hn).2)
    have h1 : ∀ cs' c', cs' <+: p.1 →
        subtreeAt (Tree.node es) cs' ≠ some (Tree.leaf c') := by
      intro cs' c' hp hc
      have hmem : (cs', c') ∈ Mp := (hleaf cs' c').mp hc
      by_cases he : cs' = p.1
      · subst he
        exact key_not_in_prev Mp L p hnodup c' hmem
      · exact hnopre (cs', c') (List.mem_append_left _ hmem) p hpM he hp
    have h2 : subtreeAt (Tree.node es) p.1 = none := by
      rcases hs : subtreeAt (Tree.node es) p.1 with _ | t₀
      · rfl
      · exfalso
        rcases t₀ with c₀ | es₀
        · exact key_not_in_prev Mp L p hnodup c₀ ((hleaf p.1 c₀).mp hs)
        · rcases hnode p.1 es₀ hpval.1 hs with ⟨q, hq, hne', hpre⟩
          exact hnopre p hpM q (List.mem_append_left _ hq) hne' hpre
    rcases mfsCp_insert p.1 es p.2 hg hpval.2 hpval.1 h1 h2
      with ⟨es', hcp, hgood', hleaf', hnode'⟩
    have hval2 : ∀ q ∈ (Mp ++ [p]) ++ L, q.1 ≠ [] ∧ ∀ n ∈ q.1, n ≠ "" ∧ noSlash n := by
      rw [List.append_assoc]
      exact hval
    have hnodup2 : (((Mp ++ [p]) ++ L).map Prod.fst).Nodup := by
      rw [List.append_assoc]
      exact hnodup
    have hnopre2 : ∀ x ∈ (Mp ++ [p]) ++ L, ∀ y ∈ (Mp ++ [p]) ++ L,
        x.1 ≠ y.1 → ¬ (x.1 <+: y.1) := by
      rw [List.append_assoc]
      exact hnopre
    have hleaf2 : ∀ cs c', subtreeAt (Tree.node es') cs = some (Tree.leaf c')
        ↔ (cs, c') ∈ Mp ++ [p] := by
      intro cs c'
      rw [List.mem_append, List.mem_singleton]
      constructor
      · intro hc
        rcases (hleaf' cs c').mp hc with hc | ⟨rfl, rfl⟩
        · exact Or.inl ((hleaf cs c').mp hc)
        · exact Or.inr Prod.mk.eta
      · rintro (hc | hc)
        · exact (hleaf' cs c').mpr (Or.inl ((hleaf cs c').mpr hc))
        · subst hc
          exact (hleaf' _ _).mpr (Or.inr ⟨rfl, rfl⟩)
    have hnode2 : ∀ cs es'', cs ≠ [] →
        subtreeAt (Tree.node es') cs = some (Tree.node es'') →
        ∃ q ∈ Mp ++ [p], cs ≠ q.1 ∧ cs <+: q.1 := by
      intro cs es'' hcne hs
      rcases hnode' cs es'' hcne hs with ⟨es₀, h⟩ | ⟨hpre, hne'⟩
      · rcases hnode cs es₀ hcne h with ⟨q, hq, hqa, hqb⟩
        exact ⟨q, List.mem_append_left _ hq, hqa, hqb⟩
      · exact ⟨p, List.mem_append_right _ (List.mem_singleton.mpr rfl),
          hne', hpre⟩
    rcases ih es' (Mp ++ [p]) hgood' hval2 hnodup2 hnopre2 hleaf2 hnode2
      with ⟨es'', hfold, hgood'', hleaf''⟩
    refine ⟨es'', ?_, hgood'', ?_⟩
    · simp only [List.foldl_cons]
      rw [hsp, hcp]
      exact hfold
    · intro cs c'
      rw [hleaf'' cs c', List.append_assoc]
      exact Iff.rfl


/-! ### C4: the round trip itself -/

/-- C4: round trip.  For a path-to-address mapping `M` (paths given as
their slash-free component lists) with no duplicate paths and no path a
prefix of another — i.e. no name collisions, no path through a file —
building a directory from `M` with `create_directory_via_mfs` over the
ideal content-addressed store and then walking the built directory with
`list_files_with_cids`'s walker recovers exactly the mapping `M` back
(as a permutation: same path→address pairs, grouped by directory rather
than in `M`'s order), every walked entry being classified as a file. -/
theorem walk_build_round_trip (M : List (List String × α)) (fuel : Nat)
    (hval : ∀ p ∈ M, p.1 ≠ [] ∧ ∀ n ∈ p.1, n ≠ "" ∧ noSlash n)
    (hnodup : (M.map Prod.fst).Nodup)
    (hnopre : ∀ p ∈ M, ∀ q ∈ M, p.1 ≠ q.1 → ¬ (p.1 <+: q.1))
    (hfuel : Tree.height
        (create_directory_via_mfs (M.map (fun p => (joinComps p.1, p.2))))
      < fuel) :
    (walk_directory treeStore [] fuel
        (create_directory_via_mfs (M.map (fun p => (joinComps p.1, p.2)))) "").Perm
      (M.map (fun p => (joinComps p.1, Tree.leaf p.2))) := by
  have hmap : create_directory_via_mfs (M.map (fun p => (joinComps p.1, p.2)))
      = M.foldl (fun t p =>
          match mfsCp t (splitPath (joinComps p.1)) p.2 with
          | some t' => t'
          | none => t) (Tree.node []) := by
    rw [create_directory_via_mfs, List.foldl_map]
  rcases build_fold M [] [] good_node_empty hval hnodup hnopre
      (fun cs c' => ⟨fun hc => absurd hc (empty_node_no_leaf cs c'),
        fun hc => by simp at hc⟩)
      (fun cs es'' hne hs => by
        exfalso
        rcases cs with _ | ⟨a, rest⟩
        · exact hne rfl
        · rw [subtreeAt_cons_none [] a rest (dlookup_nil a)] at hs
          exact Option.noConfusion hs)
    with ⟨esF, hfold, hgoodF, hleafF⟩
  have hT : create_directory_via_mfs (M.map (fun p => (joinComps p.1, p.2)))
      = Tree.node esF := by
    rw [hmap]
    exact hfold
  rw [hT] at hfuel ⊢
  rw [walk_eq_treePaths fuel (Tree.node esF) "" hgoodF hfuel]
  refine (List.perm_ext_iff_of_nodup ?_ ?_).mpr ?_
  · refine List.Nodup.of_map Prod.fst ?_
    have hwn := walk_directory_keys_nodup treeStore
      ([] : List String) fuel (Tree.node esF) ""
    rw [walk_eq_treePaths fuel (Tree.node esF) "" hgoodF hfuel] at hwn
    exact hwn
  · refine List.Nodup.map_on ?_ (List.Nodup.of_map Prod.fst hnodup)
    intro x hx y hy hxy
    have hks : joinComps x.1 = joinComps y.1 := by
      have := congrArg Prod.fst hxy
      exact this
    have hk : x.1 = y.1 :=
      joinComps_injective x.1 y.1 (hval x hx).1 (hval y hy).1
        (fun n hn => ((hval x hx).2 n hn).2)
        (fun n hn => ((hval y hy).2 n hn).2) hks
    exact eq_of_mem_keys_nodup M hnodup x y hx hy hk
  · rintro ⟨k, v⟩
    rw [treePaths_mem_iff (Tree.height (Tree.node esF)) (Tree.node esF)
      le_rfl hgoodF "" k v]
    constructor
    · rintro ⟨cs, c, hne, hsub, rfl, rfl⟩
      have hm : (cs, c) ∈ M := (hleafF cs c).mp hsub
      refine List.mem_map.mpr ⟨(cs, c), hm, ?_⟩
      rw [empty_string_append]
    · intro hm
      rcases List.mem_map.mp hm with ⟨p, hp, heq⟩
      injection heq with h1 h2
      have hpm : (p.1, p.2) ∈ M := by
        rw [Prod.mk.eta]
        exact hp
      exact ⟨p.1, p.2, (hval p hp).1, (hleafF p.1 p.2).mpr hpm, h2.symm,
        by rw [← h1, empty_string_append]⟩


theorem walk_build_round_trip_witness :
    (walk_directory treeStore [] 3
        (create_directory_via_mfs
          (([(["a"], (0 : Nat)), (["d", "b"], 1)]).map
            (fun p => (joinComps p.1, p.2)))) "").Perm
      (([(["a"], (0 : Nat)), (["d", "b"], 1)]).map
        (fun p => (joinComps p.1, Tree.leaf p.2))) := by
  refine walk_build_round_trip [(["a"], (0 : Nat)), (["d", "b"], 1)] 3
    ?_ (by decide) (by decide) ?_
  · unfold noSlash
    decide
  · have hbuild : create_directory_via_mfs
        (([(["a"], (0 : Nat)), (["d", "b"], 1)]).map
          (fun p => (joinComps p.1, p.2)))
        = Tree.node [("a", Tree.leaf 0), ("d", Tree.node [("b", Tree.leaf 1)])] :=
      rfl
    rw [hbuild]
    simp only [Tree.height, heightEntries]
    decide


end IaFil
